import Mathlib

/-!
Verification of the LightRail RAG pipeline (text chunking, token counting,
in-memory vector store, retrieval) against its natural-language specification.

Strings of the TypeScript source are modelled as `List Char`; JavaScript
numbers holding sizes are modelled as `Int` (so that non-positive
configuration values keep their source behaviour); embedding coordinates and
similarity scores are modelled as `ℚ`.  Loops whose source form is a JS
`for`/`while` are modelled with explicit fuel: the fuel bound is always
sufficient on the terminating paths, and a `none` result marks a run of the
source loop that never terminates.
-/

namespace LightRail

/-- ASCII whitespace, matching the characters the JavaScript `trim` function and the
regexp class `\s` recognise on the ASCII inputs used here. -/
def isWs (c : Char) : Bool :=
  c = ' ' || c = '\t' || c = '\n' || c = '\r' || c = '\x0b' || c = '\x0c'

/-- JavaScript string trim: drop whitespace from both ends. -/
def trimL (l : List Char) : List Char := l.dropWhile isWs

def trimR (l : List Char) : List Char := (l.reverse.dropWhile isWs).reverse

def trim (l : List Char) : List Char := trimR (trimL l)

/-- One step of JavaScript `String.prototype.split` with a non-empty string
separator: scan left to right, cutting at each (non-overlapping) occurrence
of `sep`.  `fuel` bounds the scan; `t.length + 1` is always enough. -/
def jsSplitGo (sep : List Char) : Nat → List Char → List Char → List (List Char)
  | 0, _, cur => [cur.reverse]
  | fuel + 1, t, cur =>
    match t with
    | [] => [cur.reverse]
    | c :: rest =>
      if List.isPrefixOf sep (c :: rest) then
        cur.reverse :: jsSplitGo sep fuel ((c :: rest).drop sep.length) []
      else
        jsSplitGo sep fuel rest (c :: cur)

/-- JavaScript `t.split(sep)`.  An empty separator splits into single
characters (and `"".split("")` is `[]`), as in JS. -/
def jsSplit (sep t : List Char) : List (List Char) :=
  if sep = [] then t.map (fun c => [c])
  else jsSplitGo sep (t.length + 1) t []

end LightRail

namespace LightRail

/-! ## Text chunking (`src/processing/chunking.ts`) -/

/-- `ChunkConfig` of `chunking.ts`.  Sizes are `Int` because the source never
validates them, so non-positive values flow through unchecked. -/
structure ChunkConfig where
  maxChunkSize : Int
  chunkOverlap : Int
  separators : List (List Char)
  preserveStructure : Bool

/-- The `defaultConfig` constant of `chunking.ts`. -/
def defaultChunkConfig : ChunkConfig :=
  { maxChunkSize := 1000
    chunkOverlap := 200
    separators := [['\n', '\n'], ['\n'], ['.', ' '], [',', ' '], [' ']]
    preserveStructure := true }

/-- `TextChunk` of `chunking.ts`.  The optional `metadata` field is omitted:
`chunkText` and `mergeSmallChunks` never set or consult it. -/
structure TextChunk where
  content : List Char
  index : Nat
  startOffset : Nat
  endOffset : Nat
  deriving DecidableEq, Repr

/-- The hard-split loop of `splitRecursively` (`for (i = 0; i < len;
i += max - overlap) push(slice(i, i + max))`).  When `max - ov ≤ 0` the
source loop never advances `i` and never terminates: this is modelled as
`none`.  On the terminating path fuel `t.length + 1` is always sufficient. -/
def hardSplitGo (max ov : Int) (t : List Char) : Nat → Nat → Option (List (List Char))
  | 0, i => if i < t.length then none else some []
  | fuel + 1, i =>
    if i < t.length then
      if max - ov ≤ 0 then none
      else
        match hardSplitGo max ov t fuel (i + (max - ov).toNat) with
        | some rest => some ((t.drop i).take max.toNat :: rest)
        | none => none
    else some []

def hardSplit (max ov : Int) (t : List Char) : Option (List (List Char)) :=
  hardSplitGo max ov t (t.length + 1) 0

/-- The accumulating `for (const part of parts)` loop inside
`splitRecursively`, with `recur` standing for the recursive call on the tail
separator list.  `current = []` models the falsy empty string. -/
def innerGo (max : Int) (sep : List Char) (recur : List Char → Option (List (List Char))) :
    List (List Char) → List (List Char) → List Char → Option (List (List Char))
  | [], result, current => some (if current = [] then result else result ++ [current])
  | part :: rest, result, current =>
    let potential := if current = [] then part else current ++ sep ++ part
    if (potential.length : Int) ≤ max then innerGo max sep recur rest result potential
    else
      let result1 := if current = [] then result else result ++ [current]
      if (part.length : Int) > max then
        match recur part with
        | some subs => innerGo max sep recur rest (result1 ++ subs) []
        | none => none
      else innerGo max sep recur rest result1 part

/-- `splitRecursively` of `chunkText`: keep a piece once it fits in
`maxChunkSize`; with no separators left, hard-split; otherwise split on the
first separator and accumulate parts. -/
def splitRec (max ov : Int) : List (List Char) → List Char → Option (List (List Char))
  | [], t =>
    if (t.length : Int) ≤ max then some [t] else hardSplit max ov t
  | sep :: rest, t =>
    if (t.length : Int) ≤ max then some [t]
    else innerGo max sep (splitRec max ov rest) (jsSplit sep t) [] []

/-- JavaScript `prev.slice(-ov)` for `ov > 0`: the last `ov` characters. -/
def sliceLast (ov : Int) (l : List Char) : List Char :=
  l.drop (l.length - ov.toNat)

/-- The offset/overlap loop of `chunkText` that turns raw pieces into
`TextChunk`s: each chunk is the raw piece prefixed with the previous piece's
last `chunkOverlap` characters (when `i > 0` and the overlap is positive),
then trimmed; offsets accumulate raw lengths. -/
def buildChunks (ov : Int) : List (List Char) → Option (List Char) → Nat → Nat → List TextChunk
  | [], _, _, _ => []
  | r :: rest, prev, idx, offset =>
    let content :=
      match prev with
      | some p => if 0 < ov then trim (sliceLast ov p ++ r) else trim r
      | none => trim r
    { content := content, index := idx, startOffset := offset, endOffset := offset + r.length } ::
      buildChunks ov rest (some r) (idx + 1) (offset + r.length)

/-- `chunkText` of `chunking.ts`: recursive split, overlap/trim pass, then
drop empty chunks.  `none` marks the configurations on which the source
function never returns (hard-split with `chunkOverlap ≥ maxChunkSize`). -/
def chunkText (t : List Char) (cfg : ChunkConfig) : Option (List TextChunk) :=
  match splitRec cfg.maxChunkSize cfg.chunkOverlap cfg.separators t with
  | none => none
  | some raw => some ((buildChunks cfg.chunkOverlap raw none 0 0).filter (fun c => !c.content.isEmpty))

/-- `mergeSmallChunks` of `chunking.ts`: left-to-right pass; while the
content of the accumulator is shorter than `minSize`, append the next chunk
content (joined by a blank line) and extend `endOffset`; otherwise flush. -/
def mergeGo (minSize : Nat) : List TextChunk → List TextChunk → TextChunk → List TextChunk
  | [], merged, current => merged ++ [{ current with index := merged.length }]
  | c :: rest, merged, current =>
    if current.content.length < minSize then
      mergeGo minSize rest merged
        { current with
          content := current.content ++ ['\n', '\n'] ++ c.content
          endOffset := c.endOffset }
    else
      mergeGo minSize rest (merged ++ [current]) { c with index := merged.length + 1 }

def mergeSmallChunks (chunks : List TextChunk) (minSize : Nat) : List TextChunk :=
  match chunks with
  | [] => []
  | c :: rest => mergeGo minSize rest [] c

end LightRail

namespace LightRail

/-! ## Token counting (`src/processing/tokenization.ts`, `GPTTokenCounter`) -/

mutual

/-- `text.split(/\s+/)`: cut at maximal whitespace runs, keeping the empty
pieces JS produces at a leading or trailing run.  `wsSplitGo` is scanning a
word, `wsSplitSkip` is inside a whitespace run. -/
def wsSplitGo : List Char → List Char → List (List Char)
  | [], cur => [cur.reverse]
  | c :: rest, cur =>
    if isWs c then cur.reverse :: wsSplitSkip rest else wsSplitGo rest (c :: cur)

def wsSplitSkip : List Char → List (List Char)
  | [] => [[]]
  | c :: rest => if isWs c then wsSplitSkip rest else wsSplitGo rest [c]

end

def wsSplit (t : List Char) : List (List Char) := wsSplitGo t []

/-- The character class of `GPTTokenCounter.count`: period, comma, bang, question mark, semicolon, colon, single and double quote, parentheses, square and curly brackets. -/
def isPunct (c : Char) : Bool :=
  c = '.' || c = ',' || c = '!' || c = '?' || c = ';' || c = ':' ||
  c = '\x27' || c = '\x22' || c = '(' || c = ')' || c = '[' || c = ']' ||
  c = '\x7b' || c = '\x7d'

/-- `GPTTokenCounter.count`: one token per `\s+`-split word, half a token per
punctuation character, plus `floor(len/5)` per word longer than 10
characters, rounded up.  The arithmetic `words + punct * 0.5 + adj` is exact
in IEEE doubles on these ranges, and its ceiling equals
`words + adj + (punct + 1) / 2` over `Nat`. -/
def countGPT (t : List Char) : Nat :=
  let words := wsSplit t
  let adj := (words.map (fun w => if 10 < w.length then w.length / 5 else 0)).sum
  words.length + adj + ((t.filter isPunct).length + 1) / 2

/-- JavaScript `t.lastIndexOf(pat)`: start index of the last occurrence of
`pat` in `t`, and `-1` when there is none. -/
def lastIndexOf (pat t : List Char) : Int :=
  match ((List.range (t.length + 1)).filter
      (fun i => List.isPrefixOf pat (t.drop i))).getLast? with
  | some i => (i : Int)
  | none => -1

/-- The `while (high - low > 10)` binary search of `GPTTokenCounter.truncate`;
returns the final `low`.  The interval shrinks at every step, so fuel
`t.length + 1` is always sufficient. -/
def bsGo (t : List Char) (maxTokens : Nat) : Nat → Nat → Nat → Nat
  | 0, low, _ => low
  | fuel + 1, low, high =>
    if 10 < high - low then
      let mid := (low + high) / 2
      if countGPT (t.take mid) ≤ maxTokens then bsGo t maxTokens fuel mid high
      else bsGo t maxTokens fuel low mid
    else low

/-- `GPTTokenCounter.truncate`: return the text if it already fits, else
binary-search a cut point, prefer a late period-space sentence boundary
(`lastSentence > low * 0.7`, rendered exactly as `10 * ls > 7 * low`), and
trim the result. -/
def truncateGPT (t : List Char) (maxTokens : Nat) : List Char :=
  if countGPT t ≤ maxTokens then t
  else
    let low := bsGo t maxTokens (t.length + 1) 0 t.length
    let truncated := t.take low
    let ls := lastIndexOf ['.', ' '] truncated
    let truncated2 := if 7 * (low : Int) < 10 * ls then truncated.take (ls.toNat + 1) else truncated
    trim truncated2

/-- The `while (remaining.length > 0)` loop of `GPTTokenCounter.split`, with
explicit fuel.  A `none` result means the fuel ran out: since every
terminating run of the source loop shortens `remaining` (hence needs at most
`text.length + 1` iterations), `(∀ fuel, splitGPTGo fuel t m = none)` states
that the source loop never terminates on `(t, m)`. -/
def splitGPTGo (maxTokens : Nat) : Nat → List Char → Option (List (List Char))
  | 0, r => if r = [] then some [] else none
  | fuel + 1, r =>
    if r = [] then some []
    else if countGPT r ≤ maxTokens then some [r]
    else
      let t := truncateGPT r maxTokens
      match splitGPTGo maxTokens fuel (trim (r.drop t.length)) with
      | some ps => some (t :: ps)
      | none => none

def splitGPT (fuel : Nat) (t : List Char) (maxTokens : Nat) : Option (List (List Char)) :=
  splitGPTGo maxTokens fuel t

end LightRail

namespace LightRail

/-! ## In-memory vector store (`src/rag/vector-store.ts`)

`Map<string, VectorDocument>` is modelled as a list of documents in
insertion order with pairwise-distinct ids; `set` replaces in place when the
id is present and appends otherwise, exactly the JS `Map` semantics.
`createdAt` (`new Date()` per `add`) is modelled as a logical clock that
increases with every `add`: the eviction scan sorts by `createdAt` with a
stable sort and takes the first element, and a strictly increasing clock
picks the same victim as equal millisecond timestamps resolved by stable
sort order.  Embedding coordinates are `ℚ`;
the two float similarity functions (`cosineSimilarity`, which needs a square
root, and `euclideanDistance`) are abstracted as parameters `cos` and
`dist`. -/

inductive SimilarityMetric where
  | cosine
  | euclidean
  deriving DecidableEq, Repr

/-- `VectorDocument` of `vector-store.ts`; metadata values of `undefined`
are modelled as `none`. -/
structure VectorDocument where
  id : List Char
  content : List Char
  embedding : List ℚ
  metadata : Option (List (List Char × Option (List Char)))
  createdAt : Nat
  deriving DecidableEq, Repr

/-- The `add` argument type: a `VectorDocument` without `createdAt`. -/
structure DocInput where
  id : List Char
  content : List Char
  embedding : List ℚ
  metadata : Option (List (List Char × Option (List Char)))
  deriving DecidableEq, Repr

structure VectorStoreConfig where
  dimensions : Nat
  similarityMetric : SimilarityMetric
  maxDocuments : Option Nat
  deriving DecidableEq, Repr

structure InMemoryVectorStore where
  cfg : VectorStoreConfig
  docs : List VectorDocument
  clock : Nat
  deriving DecidableEq, Repr

def emptyStore (cfg : VectorStoreConfig) : InMemoryVectorStore :=
  { cfg := cfg, docs := [], clock := 0 }

/-- JS `Map.set`: replace in place when the key is present, else append. -/
def mapSet : List VectorDocument → VectorDocument → List VectorDocument
  | [], d => [d]
  | x :: xs, d => if x.id = d.id then d :: xs else x :: mapSet xs d

/-- JS `Map.delete`: remove the entry with the given key. -/
def mapDelete : List VectorDocument → List Char → List VectorDocument
  | [], _ => []
  | x :: xs, i => if x.id = i then xs else x :: mapDelete xs i

/-- The eviction scan of `add`:
`Array.from(values).sort((a, b) => a.createdAt - b.createdAt)[0]`, i.e. the
first document in insertion order among those with minimal `createdAt`
(JS sort is stable). -/
def oldestDoc (l : List VectorDocument) : Option VectorDocument :=
  l.foldl
    (fun acc d =>
      match acc with
      | none => some d
      | some a => if d.createdAt < a.createdAt then some d else some a)
    none

namespace InMemoryVectorStore

/-- `add`: reject a dimension mismatch (`none` models the thrown error);
when `maxDocuments` is truthy and `size ≥ maxDocuments`, delete the oldest
document; then `set` the new document with the current time. -/
def add (s : InMemoryVectorStore) (d : DocInput) : Option InMemoryVectorStore :=
  if d.embedding.length ≠ s.cfg.dimensions then none
  else
    let docs1 :=
      match s.cfg.maxDocuments with
      | some m =>
        if m ≠ 0 ∧ m ≤ s.docs.length then
          match oldestDoc s.docs with
          | some o => mapDelete s.docs o.id
          | none => s.docs
        else s.docs
      | none => s.docs
    some
      { s with
        docs := mapSet docs1
          { id := d.id, content := d.content, embedding := d.embedding,
            metadata := d.metadata, createdAt := s.clock }
        clock := s.clock + 1 }

/-- A sequence of `add` calls (`addBatch` loops over `add`). -/
def addAll (s : InMemoryVectorStore) : List DocInput → Option InMemoryVectorStore
  | [] => some s
  | d :: rest =>
    match s.add d with
    | some s' => s'.addAll rest
    | none => none

def size (s : InMemoryVectorStore) : Nat := s.docs.length

def get (s : InMemoryVectorStore) (i : List Char) : Option VectorDocument :=
  s.docs.find? (fun d => d.id = i)

/-- `export()`: the documents in map (insertion) order. -/
def exportDocs (s : InMemoryVectorStore) : List VectorDocument := s.docs

/-- `import(docs)`: `set` each given document as is — no dimension check, no
eviction, `createdAt` kept. -/
def importDocs (s : InMemoryVectorStore) (l : List VectorDocument) : InMemoryVectorStore :=
  { s with docs := l.foldl mapSet s.docs }

end InMemoryVectorStore

structure SearchResult where
  document : VectorDocument
  score : ℚ
  distance : Option ℚ
  deriving DecidableEq, Repr

/-- The per-document score of `search`: cosine similarity under the cosine
metric, `1 / (1 + euclideanDistance)` under the euclidean metric. -/
def scoreOf (cos dist : List ℚ → List ℚ → ℚ) (metric : SimilarityMetric)
    (query emb : List ℚ) : ℚ × Option ℚ :=
  match metric with
  | .cosine => (cos query emb, none)
  | .euclidean => (1 / (1 + dist query emb), some (dist query emb))

/-- Insert into a descending-by-score list, after any earlier element of
equal score: composed below into the unique stable descending sort, the
output of JS `results.sort((a, b) => b.score - a.score)`. -/
def insertDesc (r : SearchResult) : List SearchResult → List SearchResult
  | [] => [r]
  | x :: xs => if x.score ≤ r.score then r :: x :: xs else x :: insertDesc r xs

def sortDesc (l : List SearchResult) : List SearchResult := l.foldr insertDesc []

namespace InMemoryVectorStore

/-- `search`: reject a query dimension mismatch, score every document that
passes the filter (in insertion order), sort by descending score, and keep
the first `topK`. -/
def search (cos dist : List ℚ → List ℚ → ℚ) (s : InMemoryVectorStore)
    (query : List ℚ) (topK : Nat) (filter : VectorDocument → Bool) :
    Option (List SearchResult) :=
  if query.length ≠ s.cfg.dimensions then none
  else
    let results := (s.docs.filter filter).map
      (fun d =>
        let sd := scoreOf cos dist s.cfg.similarityMetric query d.embedding
        { document := d, score := sd.1, distance := sd.2 })
    some ((sortDesc results).take topK)

end InMemoryVectorStore

end LightRail

namespace LightRail

/-! ## Retrieval (`src/rag/retrieval.ts`) -/

structure RetrievalConfig where
  topK : Nat
  minScore : ℚ
  maxContextLength : Nat
  includeMetadata : Bool
  deriving DecidableEq, Repr

structure RetrievalResult where
  query : List Char
  documents : List SearchResult
  context : List Char
  tokenEstimate : Nat
  deriving DecidableEq, Repr

/-- `Array.prototype.join` with a separator. -/
def joinSep (sep : List Char) : List (List Char) → List Char
  | [] => []
  | [x] => x
  | x :: y :: rest => x ++ sep ++ joinSep sep (y :: rest)

/-- `Retriever.formatDocument`: optional `[k: v, ...]` metadata line (entries
with `undefined` values dropped) followed by the document content, joined by
a newline. -/
def formatDocument (cfg : RetrievalConfig) (r : SearchResult) : List Char :=
  let metaParts : List (List Char) :=
    if cfg.includeMetadata then
      match r.document.metadata with
      | some entries =>
        let metaStr := joinSep [',', ' ']
          (entries.filterMap (fun kv => kv.2.map (fun v => kv.1 ++ [':', ' '] ++ v)))
        if metaStr = [] then [] else [['['] ++ metaStr ++ [']']]
      | none => []
    else []
  joinSep ['\n'] (metaParts ++ [r.document.content])

/-- The accumulation loop of `Retriever.buildContext`: take formatted
documents in ranked order, stopping (`break`) before the first one that
would push the accumulated length past `maxContextLength`. -/
def buildCtxGo (cfg : RetrievalConfig) :
    List SearchResult → Nat → List (List Char) → List (List Char)
  | [], _, parts => parts
  | r :: rest, cur, parts =>
    let dc := formatDocument cfg r
    if cfg.maxContextLength < cur + dc.length then parts
    else buildCtxGo cfg rest (cur + dc.length) (parts ++ [dc])

def buildContext (cfg : RetrievalConfig) (results : List SearchResult) : List Char :=
  joinSep ['\n', '\n', '-', '-', '-', '\n', '\n'] (buildCtxGo cfg results 0 [])

/-- `Retriever.retrieve` with the embedding provider abstracted: `queryEmb`
is the embedding the provider returned for `query`.  Search with a trivial
filter, drop results with `score < minScore`, build the context, and estimate
tokens as `ceil(context.length / 4)`. -/
def retrieve (cos dist : List ℚ → List ℚ → ℚ) (s : InMemoryVectorStore)
    (query : List Char) (queryEmb : List ℚ) (cfg : RetrievalConfig) :
    Option RetrievalResult :=
  match s.search cos dist queryEmb cfg.topK (fun _ => true) with
  | none => none
  | some results =>
    let filtered := results.filter (fun r => cfg.minScore ≤ r.score)
    some
      { query := query
        documents := filtered
        context := buildContext cfg filtered
        tokenEstimate := ((buildContext cfg filtered).length + 3) / 4 }

end LightRail

namespace LightRail

/-! ## Helper lemmas: chunking -/

theorem length_trimL_le (l : List Char) : (trimL l).length ≤ l.length :=
  (List.dropWhile_sublist isWs).length_le

theorem length_trimR_le (l : List Char) : (trimR l).length ≤ l.length := by
  unfold trimR
  calc ((l.reverse.dropWhile isWs).reverse).length
      = (l.reverse.dropWhile isWs).length := List.length_reverse _
    _ ≤ l.reverse.length := (List.dropWhile_sublist isWs).length_le
    _ = l.length := List.length_reverse l

theorem length_trim_le (l : List Char) : (trim l).length ≤ l.length :=
  le_trans (length_trimR_le (trimL l)) (length_trimL_le l)

theorem hardSplitGo_spec (max ov : Int) (t : List Char) (h : 0 < max - ov) :
    ∀ fuel i, t.length - i ≤ fuel →
      ∃ res, hardSplitGo max ov t fuel i = some res ∧ ∀ p ∈ res, p.length ≤ max.toNat := by
  intro fuel
  induction fuel with
  | zero =>
    intro i hi
    refine ⟨[], ?_, by simp⟩
    have : ¬ i < t.length := by omega
    simp [hardSplitGo, this]
  | succ n ih =>
    intro i hi
    by_cases hlt : i < t.length
    · have hstep : 1 ≤ (max - ov).toNat := by omega
      obtain ⟨res, hres, hb⟩ := ih (i + (max - ov).toNat) (by omega)
      refine ⟨(t.drop i).take max.toNat :: res, ?_, ?_⟩
      · have : ¬ max - ov ≤ 0 := by omega
        simp [hardSplitGo, hlt, this, hres]
      · intro p hp
        rcases List.mem_cons.mp hp with hp | hp
        · subst hp
          exact List.length_take_le max.toNat (t.drop i)
        · exact hb p hp
    · exact ⟨[], by simp [hardSplitGo, hlt], by simp⟩

theorem innerGo_spec (max : Int) (sep : List Char)
    (recur : List Char → Option (List (List Char)))
    (hrec : ∀ part, max < (part.length : Int) →
      ∃ subs, recur part = some subs ∧ ∀ p ∈ subs, p.length ≤ max.toNat)
    (hmax : 0 ≤ max) :
    ∀ parts result current, (∀ p ∈ result, p.length ≤ max.toNat) →
      (current.length : Int) ≤ max →
      ∃ res, innerGo max sep recur parts result current = some res ∧
        ∀ p ∈ res, p.length ≤ max.toNat := by
  intro parts
  induction parts with
  | nil =>
    intro result current hres hcur
    refine ⟨_, rfl, ?_⟩
    intro p hp
    by_cases hc : current = []
    · rw [if_pos hc] at hp
      exact hres p hp
    · rw [if_neg hc] at hp
      rcases List.mem_append.mp hp with hp | hp
      · exact hres p hp
      · simp at hp; subst hp; omega
  | cons part rest ih =>
    intro result current hres hcur
    simp only [innerGo]
    set potential := if current = [] then part else current ++ sep ++ part with hpot
    by_cases h1 : (potential.length : Int) ≤ max
    · obtain ⟨res, hr, hb⟩ := ih result potential hres h1
      exact ⟨res, by simp [h1, hr], hb⟩
    · have hres1 : ∀ p ∈ (if current = [] then result else result ++ [current]),
          p.length ≤ max.toNat := by
        intro p hp
        by_cases hc : current = []
        · rw [if_pos hc] at hp
          exact hres p hp
        · rw [if_neg hc] at hp
          rcases List.mem_append.mp hp with hp | hp
          · exact hres p hp
          · simp at hp; subst hp; omega
      by_cases h2 : (part.length : Int) > max
      · obtain ⟨subs, hs, hsb⟩ := hrec part h2
        have hres2 : ∀ p ∈ (if current = [] then result else result ++ [current]) ++ subs,
            p.length ≤ max.toNat := by
          intro p hp
          rcases List.mem_append.mp hp with hp | hp
          · exact hres1 p hp
          · exact hsb p hp
        obtain ⟨res, hr, hb⟩ := ih _ [] hres2 (by simpa using hmax)
        exact ⟨res, by simp [h1, h2, hs, hr], hb⟩
      · obtain ⟨res, hr, hb⟩ := ih _ part hres1 (by omega)
        exact ⟨res, by simp [h1, h2, hr], hb⟩

theorem splitRec_spec (max ov : Int) (h0 : 0 ≤ ov) (hlt : ov < max) :
    ∀ (seps : List (List Char)) (t : List Char),
      ∃ res, splitRec max ov seps t = some res ∧ ∀ p ∈ res, p.length ≤ max.toNat := by
  intro seps
  induction seps with
  | nil =>
    intro t
    by_cases hle : (t.length : Int) ≤ max
    · exact ⟨[t], by simp [splitRec, hle], by intro p hp; simp at hp; subst hp; omega⟩
    · obtain ⟨res, hr, hb⟩ :=
        hardSplitGo_spec max ov t (by omega) (t.length + 1) 0 (by omega)
      exact ⟨res, by simpa [splitRec, hle, hardSplit] using hr, hb⟩
  | cons sep rest ih =>
    intro t
    by_cases hle : (t.length : Int) ≤ max
    · exact ⟨[t], by simp [splitRec, hle], by intro p hp; simp at hp; subst hp; omega⟩
    · obtain ⟨res, hr, hb⟩ :=
        innerGo_spec max sep (splitRec max ov rest)
          (fun part _ => ih part) (by omega)
          (jsSplit sep t) [] [] (by simp) (by simp; omega)
      exact ⟨res, by simp [splitRec, hle, hr], hb⟩

theorem sliceLast_length (ov : Int) (l : List Char) : (sliceLast ov l).length ≤ ov.toNat := by
  simp [sliceLast]
  omega

theorem buildChunks_content (ov : Int) (mb : Nat) :
    ∀ (raw : List (List Char)) (prev : Option (List Char)) (idx off : Nat),
      (∀ r ∈ raw, r.length ≤ mb) →
      ∀ c ∈ buildChunks ov raw prev idx off,
        c.content.length ≤ mb + ov.toNat ∧ (ov ≤ 0 → c.content.length ≤ mb) := by
  intro raw
  induction raw with
  | nil => intro prev idx off _ c hc; simp [buildChunks] at hc
  | cons r rest ih =>
    intro prev idx off hb c hc
    have hr : r.length ≤ mb := hb r (by simp)
    simp only [buildChunks, List.mem_cons] at hc
    rcases hc with hc | hc
    · subst hc
      cases prev with
      | none =>
        have := length_trim_le r
        dsimp only
        constructor
        · omega
        · intro _; omega
      | some p =>
        dsimp only
        by_cases hov : 0 < ov
        · rw [if_pos hov]
          have h1 := length_trim_le (sliceLast ov p ++ r)
          have h2 := sliceLast_length ov p
          rw [List.length_append] at h1
          constructor
          · omega
          · intro h; omega
        · rw [if_neg hov]
          have := length_trim_le r
          constructor
          · omega
          · intro _; omega
    · exact ih (some r) (idx + 1) (off + r.length) (fun x hx => hb x (by simp [hx])) c hc

end LightRail

namespace LightRail

/-! ## Claims C3, C4, C9 -/

set_option maxRecDepth 40000

/-- C3 counterexample: with the malformed configuration
`maxChunkSize = 0, chunkOverlap = 0` (which satisfies both
`chunkOverlap ≥ maxChunkSize` and `maxChunkSize ≤ 0`), `chunkText` does not
fail fast with a configuration error: on the empty text it returns a chunk
list, and on the text `"ab"` with `maxChunkSize = 1 = chunkOverlap` it fails
to terminate (the hard-split loop never advances). -/
theorem C3_counterexample :
    chunkText []
        { maxChunkSize := 0, chunkOverlap := 0,
          separators := defaultChunkConfig.separators, preserveStructure := true } = some [] ∧
    chunkText ['a', 'b']
        { maxChunkSize := 1, chunkOverlap := 1,
          separators := defaultChunkConfig.separators, preserveStructure := true } = none := by
  constructor <;> decide

/-- C3 (amended): `chunkText` performs no validation of its configuration.
With a malformed config (`chunkOverlap ≥ maxChunkSize` or
`maxChunkSize ≤ 0`) it raises no configuration error: every call whose text
already fits in `maxChunkSize` returns a chunk list normally (and calls that
reach the hard-split loop never return at all, see the counterexample). -/
theorem C3_no_config_validation :
    ∀ (cfg : ChunkConfig) (t : List Char),
      (cfg.maxChunkSize ≤ cfg.chunkOverlap ∨ cfg.maxChunkSize ≤ 0) →
      (t.length : Int) ≤ cfg.maxChunkSize →
      ∃ cs, chunkText t cfg = some cs := by
  intro cfg t _ hlen
  unfold chunkText
  cases hsep : cfg.separators with
  | nil => simp [splitRec, hlen]
  | cons s rest => simp [splitRec, hlen]

/-- Witness for `C3_no_config_validation` at the malformed config
`maxChunkSize = 0, chunkOverlap = 0` and the empty text. -/
theorem C3_no_config_validation_witness :
    ∃ cs, chunkText []
        { maxChunkSize := 0, chunkOverlap := 0,
          separators := defaultChunkConfig.separators, preserveStructure := true } = some cs :=
  C3_no_config_validation
    { maxChunkSize := 0, chunkOverlap := 0,
      separators := defaultChunkConfig.separators, preserveStructure := true }
    [] (Or.inl (by decide)) (by decide)

/-- C4 counterexample: with `maxChunkSize = 5, chunkOverlap = 2` the text
`"aaaa bbbb"` chunks into `["aaaa", "aabbbb"]` — the second chunk has length
6 > maxChunkSize although no hard split of an indivisible unit is involved
(every space-separated unit of the input fits in `maxChunkSize`, as the
second conjunct records): the overlap prefix pushes a chunk past the bound. -/
theorem C4_counterexample :
    (chunkText ['a', 'a', 'a', 'a', ' ', 'b', 'b', 'b', 'b']
        { maxChunkSize := 5, chunkOverlap := 2,
          separators := defaultChunkConfig.separators, preserveStructure := true }).map
      (fun cs => cs.map (fun c => (c.content, c.content.length))) =
      some [(['a', 'a', 'a', 'a'], 4), (['a', 'a', 'b', 'b', 'b', 'b'], 6)] ∧
    (jsSplit [' '] ['a', 'a', 'a', 'a', ' ', 'b', 'b', 'b', 'b']).all
      (fun u => u.length ≤ 5) = true := by
  constructor <;> decide

/-- C4 (amended): for a valid config (`0 ≤ chunkOverlap < maxChunkSize`)
the content length of every chunk is at most `maxChunkSize + chunkOverlap`, and at
most `maxChunkSize` whenever `chunkOverlap = 0` (the hard-split pieces are
themselves never longer than `maxChunkSize`; it is the overlap prefix, not
hard splitting, that can exceed it).  In particular chunking
`"A"*500 ++ "\n\n" ++ "B"*500` with `maxChunkSize = 200, chunkOverlap = 0`
yields more than one chunk, each of length ≤ 200. -/
theorem C4_chunk_length_bound :
    (∀ (t : List Char) (cfg : ChunkConfig),
      0 ≤ cfg.chunkOverlap → cfg.chunkOverlap < cfg.maxChunkSize →
      ∃ cs, chunkText t cfg = some cs ∧
        (∀ c ∈ cs, c.content.length ≤ cfg.maxChunkSize.toNat + cfg.chunkOverlap.toNat) ∧
        (cfg.chunkOverlap = 0 → ∀ c ∈ cs, c.content.length ≤ cfg.maxChunkSize.toNat)) ∧
    (chunkText (List.replicate 500 'A' ++ ['\n', '\n'] ++ List.replicate 500 'B')
        { maxChunkSize := 200, chunkOverlap := 0,
          separators := defaultChunkConfig.separators, preserveStructure := true }).map
      (fun cs => (decide (1 < cs.length), cs.all (fun c => c.content.length ≤ 200))) =
      some (true, true) := by
  constructor
  · intro t cfg h0 hlt
    obtain ⟨raw, hraw, hb⟩ := splitRec_spec cfg.maxChunkSize cfg.chunkOverlap h0 hlt cfg.separators t
    refine ⟨(buildChunks cfg.chunkOverlap raw none 0 0).filter (fun c => !c.content.isEmpty),
      by simp [chunkText, hraw], ?_, ?_⟩
    · intro c hc
      have hc' := List.mem_of_mem_filter hc
      exact (buildChunks_content cfg.chunkOverlap cfg.maxChunkSize.toNat raw none 0 0 hb c hc').1
    · intro hov c hc
      have hc' := List.mem_of_mem_filter hc
      have := (buildChunks_content cfg.chunkOverlap cfg.maxChunkSize.toNat raw none 0 0 hb c hc').2
      simp [hov] at this
      exact this
  · decide

/-- Witness for `C4_chunk_length_bound` at the text `"hi"` and the valid
config `maxChunkSize = 5, chunkOverlap = 1`. -/
theorem C4_chunk_length_bound_witness :
    ∃ cs, chunkText ['h', 'i']
        { maxChunkSize := 5, chunkOverlap := 1,
          separators := defaultChunkConfig.separators, preserveStructure := true } = some cs ∧
      (∀ c ∈ cs, c.content.length ≤ (5 : Int).toNat + (1 : Int).toNat) ∧
      ((1 : Int) = 0 → ∀ c ∈ cs, c.content.length ≤ (5 : Int).toNat) :=
  C4_chunk_length_bound.1 ['h', 'i']
    { maxChunkSize := 5, chunkOverlap := 1,
      separators := defaultChunkConfig.separators, preserveStructure := true }
    (by decide) (by decide)

end LightRail

namespace LightRail

/-- C9 (code bug): `GPTTokenCounter.split` does not terminate on every
input.  On the text of ten period characters with `maxTokens = 1` the count
is 6 > 1, `truncate` returns the empty string (the binary search is skipped
because the text is only 10 characters long, and `slice(0, 0).trim()` is
empty), so `remaining.slice(0).trim()` never shrinks: the source `while`
loop runs forever.  Formally: no amount of fuel makes the loop model
return. -/
theorem C9_gpt_split_diverges :
    ∀ fuel, splitGPT fuel (List.replicate 10 '.') 1 = none := by
  intro fuel
  induction fuel with
  | zero => decide
  | succ n ih =>
    have h1 : (List.replicate 10 '.' : List Char) ≠ [] := by decide
    have h2 : ¬ countGPT (List.replicate 10 '.') ≤ 1 := by decide
    have h3 : trim ((List.replicate 10 '.').drop
        (truncateGPT (List.replicate 10 '.') 1).length) = List.replicate 10 '.' := by decide
    have ih' : splitGPTGo 1 n (List.replicate 10 '.') = none := ih
    show splitGPTGo 1 (n + 1) (List.replicate 10 '.') = none
    rw [splitGPTGo, if_neg h1, if_neg h2]
    simp only [h3, ih']

end LightRail

namespace LightRail

/-! ## Helper lemmas and claim C8: mergeSmallChunks -/

theorem mergeGo_length_le (minSize : Nat) :
    ∀ (l merged : List TextChunk) (current : TextChunk),
      (mergeGo minSize l merged current).length ≤ merged.length + 1 + l.length := by
  intro l
  induction l with
  | nil => intro merged current; simp [mergeGo]
  | cons x rest ih =>
    intro merged current
    by_cases h : current.content.length < minSize
    · simp only [mergeGo, if_pos h, List.length_cons]
      have := ih merged
        { current with
          content := current.content ++ ['\n', '\n'] ++ x.content
          endOffset := x.endOffset }
      omega
    · simp only [mergeGo, if_neg h, List.length_cons]
      have := ih (merged ++ [current]) { x with index := merged.length + 1 }
      simp only [List.length_append, List.length_cons, List.length_nil] at this
      omega

theorem mergeGo_length_lt (minSize : Nat) :
    ∀ (l merged : List TextChunk) (current : TextChunk),
      (∃ n ∈ ((current :: l).map (fun ch => ch.content.length)).dropLast, n < minSize) →
      (mergeGo minSize l merged current).length ≤ merged.length + l.length := by
  intro l
  induction l with
  | nil =>
    intro merged current h
    simp at h
  | cons x rest ih =>
    intro merged current h
    by_cases hc : current.content.length < minSize
    · simp only [mergeGo, if_pos hc, List.length_cons]
      have := mergeGo_length_le minSize rest merged
        { current with
          content := current.content ++ ['\n', '\n'] ++ x.content
          endOffset := x.endOffset }
      omega
    · simp only [mergeGo, if_neg hc, List.length_cons]
      obtain ⟨n, hn, hlt⟩ := h
      have hn' : n ∈ (({ x with index := merged.length + 1 } :: rest).map
          (fun ch => ch.content.length)).dropLast := by
        simp only [List.map_cons] at hn ⊢
        rw [List.dropLast_cons_of_ne_nil (by simp)] at hn
        rcases List.mem_cons.mp hn with hn | hn
        · exact absurd (hn ▸ hlt) hc
        · exact hn
      have := ih (merged ++ [current]) { x with index := merged.length + 1 } ⟨n, hn', hlt⟩
      simp only [List.length_append, List.length_cons, List.length_nil] at this
      omega

/-- C8: `mergeSmallChunks` never returns more chunks than it was given, and
returns strictly fewer whenever some chunk shorter than `minSize` has a
successor; in particular chunks of content lengths `[5, 10, 49]` with
`minSize = 30` merge to a single chunk. -/
theorem C8_merge_never_grows :
    (∀ (chunks : List TextChunk) (minSize : Nat),
      (mergeSmallChunks chunks minSize).length ≤ chunks.length) ∧
    (∀ (chunks : List TextChunk) (minSize : Nat),
      (∃ c ∈ chunks.dropLast, c.content.length < minSize) →
      (mergeSmallChunks chunks minSize).length < chunks.length) ∧
    (mergeSmallChunks
        [⟨List.replicate 5 'x', 0, 0, 5⟩, ⟨List.replicate 10 'y', 1, 5, 15⟩,
         ⟨List.replicate 49 'z', 2, 15, 64⟩] 30).length < 3 := by
  refine ⟨?_, ?_, by decide⟩
  · intro chunks minSize
    cases chunks with
    | nil => simp [mergeSmallChunks]
    | cons c rest =>
      have := mergeGo_length_le minSize rest [] c
      simp [mergeSmallChunks]
      simp at this
      omega
  · intro chunks minSize h
    cases chunks with
    | nil => simp at h
    | cons c rest =>
      obtain ⟨x, hx, hlt⟩ := h
      have hx' : x.content.length ∈ (((c :: rest).map
          (fun ch => ch.content.length)).dropLast) := by
        rw [← List.map_dropLast]
        exact List.mem_map_of_mem _ hx
      have := mergeGo_length_lt minSize rest [] c ⟨x.content.length, hx', hlt⟩
      simp [mergeSmallChunks]
      simp at this
      omega

/-- Witness for `C8_merge_never_grows`: its strict part applied to the
`[5, 10, 49]`-length chunk list with `minSize = 30`. -/
theorem C8_merge_never_grows_witness :
    (mergeSmallChunks
        [⟨List.replicate 5 'x', 0, 0, 5⟩, ⟨List.replicate 10 'y', 1, 5, 15⟩,
         ⟨List.replicate 49 'z', 2, 15, 64⟩] 30).length <
      ([⟨List.replicate 5 'x', 0, 0, 5⟩, ⟨List.replicate 10 'y', 1, 5, 15⟩,
        ⟨List.replicate 49 'z', 2, 15, 64⟩] : List TextChunk).length :=
  C8_merge_never_grows.2.1
    [⟨List.replicate 5 'x', 0, 0, 5⟩, ⟨List.replicate 10 'y', 1, 5, 15⟩,
     ⟨List.replicate 49 'z', 2, 15, 64⟩] 30
    ⟨⟨List.replicate 5 'x', 0, 0, 5⟩, by decide, by decide⟩

end LightRail

namespace LightRail

/-! ## Helper lemmas: trimming and whitespace preservation -/

theorem dropWhile_head_ws : ∀ (l : List Char), ∀ c ∈ (l.dropWhile isWs).head?, isWs c = false := by
  intro l
  induction l with
  | nil => intro c hc; simp at hc
  | cons a as ih =>
    intro c hc
    cases hw : isWs a with
    | true => rw [List.dropWhile_cons, if_pos hw] at hc; exact ih c hc
    | false =>
      rw [List.dropWhile_cons, if_neg (by simp [hw])] at hc
      simp at hc
      subst hc
      exact hw

theorem trimR_concat_eq (l : List Char) : ∃ rest, trimR l ++ rest = l := by
  obtain ⟨t, ht⟩ := List.dropWhile_suffix (l := l.reverse) (p := isWs)
  refine ⟨t.reverse, ?_⟩
  rw [trimR, ← List.reverse_append, ht, List.reverse_reverse]

theorem trimR_last_ws (l : List Char) : ∀ c ∈ (trimR l).getLast?, isWs c = false := by
  intro c hc
  rw [trimR, List.getLast?_reverse] at hc
  exact dropWhile_head_ws l.reverse c hc

theorem trim_last_ws (l : List Char) : ∀ c ∈ (trim l).getLast?, isWs c = false :=
  trimR_last_ws (trimL l)

theorem trim_head_ws (l : List Char) : ∀ c ∈ (trim l).head?, isWs c = false := by
  intro c hc
  obtain ⟨rest, hrest⟩ := trimR_concat_eq (trimL l)
  cases htr : trimR (trimL l) with
  | nil => rw [trim, htr] at hc; simp at hc
  | cons a as =>
    rw [trim, htr] at hc
    have hac : a = c := by simpa using hc
    have hh : (l.dropWhile isWs).head? = some a := by
      show (trimL l).head? = some a
      rw [← hrest, htr]
      simp
    rw [← hac]
    exact dropWhile_head_ws l a hh

theorem trim_eq_nil_of_ws (l : List Char) (h : ∀ c ∈ l, isWs c = true) : trim l = [] := by
  have h1 : trimL l = [] := by
    simp only [trimL]
    exact List.dropWhile_eq_nil_iff.mpr (fun x hx => by simp [h x hx])
  rw [trim, h1]
  rfl

theorem mem_of_isPrefixOf :
    ∀ (s t : List Char), List.isPrefixOf s t = true → ∀ c ∈ s, c ∈ t := by
  intro s
  induction s with
  | nil => intro t _ c hc; simp at hc
  | cons a as ih =>
    intro t h c hc
    cases t with
    | nil => simp [List.isPrefixOf] at h
    | cons b bs =>
      simp only [List.isPrefixOf, Bool.and_eq_true, beq_iff_eq] at h
      obtain ⟨hab, h2⟩ := h
      rcases List.mem_cons.mp hc with hc | hc
      · subst hc; rw [hab]; simp
      · exact List.mem_cons_of_mem b (ih bs h2 c hc)

theorem jsSplitGo_chars (sep : List Char) :
    ∀ (fuel : Nat) (t cur : List Char),
      (∀ c ∈ t, isWs c = true) → (∀ c ∈ cur, isWs c = true) →
      ∀ p ∈ jsSplitGo sep fuel t cur, ∀ c ∈ p, isWs c = true := by
  intro fuel
  induction fuel with
  | zero =>
    intro t cur _ hcur p hp c hc
    simp only [jsSplitGo, List.mem_singleton] at hp
    subst hp
    exact hcur c (List.mem_reverse.mp hc)
  | succ n ih =>
    intro t cur ht hcur p hp c hc
    cases t with
    | nil =>
      simp only [jsSplitGo, List.mem_singleton] at hp
      subst hp
      exact hcur c (List.mem_reverse.mp hc)
    | cons a rest =>
      cases hpre : List.isPrefixOf sep (a :: rest) with
      | true =>
        simp only [jsSplitGo, hpre, if_true] at hp
        rcases List.mem_cons.mp hp with hp | hp
        · subst hp; exact hcur c (List.mem_reverse.mp hc)
        · exact ih ((a :: rest).drop sep.length) []
            (fun x hx => ht x (List.drop_subset _ _ hx)) (by simp) p hp c hc
      | false =>
        simp only [jsSplitGo, hpre, Bool.false_eq_true, if_false] at hp
        refine ih rest (a :: cur) (fun x hx => ht x (List.mem_cons_of_mem a hx)) ?_ p hp c hc
        intro y hy
        rcases List.mem_cons.mp hy with hy | hy
        · rw [hy]; exact ht a (by simp)
        · exact hcur y hy

theorem jsSplitGo_sep_ws (sep : List Char) :
    ∀ (fuel : Nat) (t cur : List Char), (∀ c ∈ t, isWs c = true) →
      1 < (jsSplitGo sep fuel t cur).length → ∀ c ∈ sep, isWs c = true := by
  intro fuel
  induction fuel with
  | zero => intro t cur _ hl; simp [jsSplitGo] at hl
  | succ n ih =>
    intro t cur ht hl c hc
    cases t with
    | nil => simp [jsSplitGo] at hl
    | cons a rest =>
      cases hpre : List.isPrefixOf sep (a :: rest) with
      | true => exact ht c (mem_of_isPrefixOf sep (a :: rest) hpre c hc)
      | false =>
        simp only [jsSplitGo, hpre, Bool.false_eq_true, if_false] at hl
        exact ih rest (a :: cur) (fun x hx => ht x (List.mem_cons_of_mem a hx)) hl c hc

theorem jsSplit_chars (sep t : List Char) (ht : ∀ c ∈ t, isWs c = true) :
    ∀ p ∈ jsSplit sep t, ∀ c ∈ p, isWs c = true := by
  intro p hp c hc
  by_cases hse : sep = []
  · simp only [jsSplit, if_pos hse] at hp
    obtain ⟨x, hx, hpx⟩ := List.mem_map.mp hp
    subst hpx
    have hcx : c = x := by simpa using hc
    rw [hcx]
    exact ht x hx
  · simp only [jsSplit, if_neg hse] at hp
    exact jsSplitGo_chars sep (t.length + 1) t [] ht (by simp) p hp c hc

theorem jsSplit_sep_ws (sep t : List Char) (ht : ∀ c ∈ t, isWs c = true)
    (hl : 1 < (jsSplit sep t).length) : ∀ c ∈ sep, isWs c = true := by
  by_cases hse : sep = []
  · subst hse; intro c hc; simp at hc
  · simp only [jsSplit, if_neg hse] at hl
    exact jsSplitGo_sep_ws sep (t.length + 1) t [] ht hl

theorem hardSplitGo_ws (max ov : Int) (t : List Char) (ht : ∀ c ∈ t, isWs c = true) :
    ∀ (fuel i : Nat) (res : List (List Char)), hardSplitGo max ov t fuel i = some res →
      ∀ p ∈ res, ∀ c ∈ p, isWs c = true := by
  intro fuel
  induction fuel with
  | zero =>
    intro i res h p hp c hc
    by_cases hi : i < t.length
    · simp [hardSplitGo, hi] at h
    · simp only [hardSplitGo, if_neg hi, Option.some.injEq] at h
      subst h
      simp at hp
  | succ n ih =>
    intro i res h p hp c hc
    by_cases hi : i < t.length
    · by_cases hs : max - ov ≤ 0
      · simp [hardSplitGo, hi, hs] at h
      · simp only [hardSplitGo, if_pos hi, if_neg hs] at h
        cases hr : hardSplitGo max ov t n (i + (max - ov).toNat) with
        | none => rw [hr] at h; simp at h
        | some rest =>
          rw [hr] at h
          simp only [Option.some.injEq] at h
          subst h
          rcases List.mem_cons.mp hp with hp | hp
          · subst hp
            exact ht c (List.drop_subset _ _ (List.take_subset _ _ hc))
          · exact ih (i + (max - ov).toNat) rest hr p hp c hc
    · simp only [hardSplitGo, if_neg hi, Option.some.injEq] at h
      subst h
      simp at hp

end LightRail

namespace LightRail

theorem innerGo_ws (max : Int) (sep : List Char)
    (recur : List Char → Option (List (List Char)))
    (hrec : ∀ part subs, (∀ c ∈ part, isWs c = true) → recur part = some subs →
      ∀ p ∈ subs, ∀ c ∈ p, isWs c = true) :
    ∀ (parts result current : _) (res : List (List Char)),
      ((∀ c ∈ sep, isWs c = true) ∨ parts.length + (if current = ([] : List Char) then 0 else 1) ≤ 1) →
      (∀ p ∈ parts, ∀ c ∈ p, isWs c = true) →
      (∀ c ∈ current, isWs c = true) →
      (∀ p ∈ result, ∀ c ∈ p, isWs c = true) →
      innerGo max sep recur parts result current = some res →
      ∀ p ∈ res, ∀ c ∈ p, isWs c = true := by
  intro parts
  induction parts with
  | nil =>
    intro result current res _ _ hcur hres heq p hp c hc
    simp only [innerGo, Option.some.injEq] at heq
    subst heq
    by_cases hce : current = []
    · rw [if_pos hce] at hp
      exact hres p hp c hc
    · rw [if_neg hce] at hp
      rcases List.mem_append.mp hp with hp | hp
      · exact hres p hp c hc
      · have : p = current := by simpa using hp
        subst this
        exact hcur c hc
  | cons part rest ih =>
    intro result current res hor hparts hcur hres heq p hp c hc
    have hpart : ∀ c ∈ part, isWs c = true := hparts part (by simp)
    have hrest : ∀ p ∈ rest, ∀ c ∈ p, isWs c = true :=
      fun p hp => hparts p (List.mem_cons_of_mem part hp)
    simp only [innerGo] at heq
    by_cases h1 : (((if current = ([] : List Char) then part else current ++ sep ++ part).length : Int)) ≤ max
    · rw [if_pos h1] at heq
      have hor' : (∀ c ∈ sep, isWs c = true) ∨
          rest.length + (if (if current = ([] : List Char) then part else current ++ sep ++ part) = ([] : List Char) then 0 else 1) ≤ 1 := by
        rcases hor with h | h
        · exact Or.inl h
        · right
          have hr0 : rest.length = 0 := by
            by_cases hce : current = []
            · simp only [hce, if_pos, List.length_cons] at h
              omega
            · rw [if_neg hce] at h
              simp only [List.length_cons] at h
              omega
          rw [hr0]
          by_cases hpe : (if current = ([] : List Char) then part else current ++ sep ++ part) = ([] : List Char)
          · rw [if_pos hpe]; omega
          · rw [if_neg hpe]
      have hcur' : ∀ c ∈ (if current = ([] : List Char) then part else current ++ sep ++ part), isWs c = true := by
        by_cases hce : current = []
        · rw [if_pos hce]; exact hpart
        · rw [if_neg hce]
          have hsep : ∀ c ∈ sep, isWs c = true := by
            rcases hor with h | h
            · exact h
            · rw [if_neg hce] at h
              simp only [List.length_cons] at h
              omega
          intro x hx
          rcases List.mem_append.mp hx with hx | hx
          · rcases List.mem_append.mp hx with hx | hx
            · exact hcur x hx
            · exact hsep x hx
          · exact hpart x hx
      exact ih result _ res hor' hrest hcur' hres heq p hp c hc
    · rw [if_neg h1] at heq
      have hres1 : ∀ p ∈ (if current = ([] : List Char) then result else result ++ [current]),
          ∀ c ∈ p, isWs c = true := by
        intro q hq
        by_cases hce : current = []
        · rw [if_pos hce] at hq; exact hres q hq
        · rw [if_neg hce] at hq
          rcases List.mem_append.mp hq with hq | hq
          · exact hres q hq
          · have : q = current := by simpa using hq
            subst this
            exact hcur
      have hr0 : rest.length = 0 ∨ (∀ c ∈ sep, isWs c = true) := by
        rcases hor with h | h
        · exact Or.inr h
        · left
          by_cases hce : current = []
          · simp only [hce, if_pos, List.length_cons] at h; omega
          · rw [if_neg hce] at h; simp only [List.length_cons] at h; omega
      have hor'' : ∀ (cur2 : List Char), (∀ c ∈ sep, isWs c = true) ∨
          rest.length + (if cur2 = ([] : List Char) then 0 else 1) ≤ 1 := by
        intro cur2
        rcases hr0 with h | h
        · right; rw [h]; split <;> omega
        · exact Or.inl h
      by_cases h2 : ((part.length : Int)) > max
      · rw [if_pos h2] at heq
        cases hrp : recur part with
        | none => rw [hrp] at heq; simp at heq
        | some subs =>
          rw [hrp] at heq
          have hsubs := hrec part subs hpart hrp
          have hresall : ∀ p ∈ (if current = ([] : List Char) then result else result ++ [current]) ++ subs,
              ∀ c ∈ p, isWs c = true := by
            intro q hq
            rcases List.mem_append.mp hq with hq | hq
            · exact hres1 q hq
            · exact hsubs q hq
          exact ih _ [] res (hor'' []) hrest (by simp) hresall heq p hp c hc
      · rw [if_neg h2] at heq
        exact ih _ part res (hor'' part) hrest hpart hres1 heq p hp c hc

theorem splitRec_ws (max ov : Int) :
    ∀ (seps : List (List Char)) (t : List Char) (res : List (List Char)),
      (∀ c ∈ t, isWs c = true) → splitRec max ov seps t = some res →
      ∀ p ∈ res, ∀ c ∈ p, isWs c = true := by
  intro seps
  induction seps with
  | nil =>
    intro t res ht heq p hp c hc
    by_cases hle : ((t.length : Int)) ≤ max
    · simp only [splitRec, if_pos hle, Option.some.injEq] at heq
      subst heq
      have : p = t := by simpa using hp
      subst this
      exact ht c hc
    · simp only [splitRec, if_neg hle] at heq
      exact hardSplitGo_ws max ov t ht (t.length + 1) 0 res heq p hp c hc
  | cons sep rest ih =>
    intro t res ht heq p hp c hc
    by_cases hle : ((t.length : Int)) ≤ max
    · simp only [splitRec, if_pos hle, Option.some.injEq] at heq
      subst heq
      have : p = t := by simpa using hp
      subst this
      exact ht c hc
    · simp only [splitRec, if_neg hle] at heq
      have hparts : ∀ q ∈ jsSplit sep t, ∀ c ∈ q, isWs c = true := jsSplit_chars sep t ht
      have hor : (∀ c ∈ sep, isWs c = true) ∨
          (jsSplit sep t).length + (if ([] : List Char) = ([] : List Char) then 0 else 1) ≤ 1 := by
        by_cases hl : 1 < (jsSplit sep t).length
        · exact Or.inl (jsSplit_sep_ws sep t ht hl)
        · right; simp; omega
      exact innerGo_ws max sep (splitRec max ov rest)
        (fun part subs hws hr => ih part subs hws hr)
        (jsSplit sep t) [] [] res hor hparts (by simp) (by simp) heq p hp c hc

theorem buildChunks_shape (ov : Int) :
    ∀ (raw : List (List Char)) (prev : Option (List Char)) (idx off : Nat),
      ∀ ch ∈ buildChunks ov raw prev idx off, ∃ x, ch.content = trim x := by
  intro raw
  induction raw with
  | nil => intro prev idx off ch hch; simp [buildChunks] at hch
  | cons r rest ih =>
    intro prev idx off ch hch
    simp only [buildChunks, List.mem_cons] at hch
    rcases hch with hch | hch
    · subst hch
      cases prev with
      | none => exact ⟨r, rfl⟩
      | some p =>
        by_cases hov : 0 < ov
        · exact ⟨sliceLast ov p ++ r, by simp [hov]⟩
        · exact ⟨r, by simp [hov]⟩
    · exact ih (some r) (idx + 1) (off + r.length) ch hch

theorem buildChunks_ws (ov : Int) :
    ∀ (raw : List (List Char)) (prev : Option (List Char)) (idx off : Nat),
      (∀ p ∈ raw, ∀ c ∈ p, isWs c = true) →
      (∀ pp, prev = some pp → ∀ c ∈ pp, isWs c = true) →
      ∀ ch ∈ buildChunks ov raw prev idx off, ch.content = [] := by
  intro raw
  induction raw with
  | nil => intro prev idx off _ _ ch hch; simp [buildChunks] at hch
  | cons r rest ih =>
    intro prev idx off hraw hprev ch hch
    have hr : ∀ c ∈ r, isWs c = true := hraw r (by simp)
    simp only [buildChunks, List.mem_cons] at hch
    rcases hch with hch | hch
    · subst hch
      cases prev with
      | none => exact trim_eq_nil_of_ws r hr
      | some p =>
        by_cases hov : 0 < ov
        · simp only [hov, if_pos]
          refine trim_eq_nil_of_ws _ ?_
          intro x hx
          rcases List.mem_append.mp hx with hx | hx
          · exact hprev p rfl x (List.drop_subset _ _ hx)
          · exact hr x hx
        · simp only [hov, if_neg]
          exact trim_eq_nil_of_ws r hr
    · exact ih (some r) (idx + 1) (off + r.length)
        (fun q hq => hraw q (List.mem_cons_of_mem r hq))
        (fun pp hpp => by injection hpp with h; subst h; exact hr) ch hch

/-- C10: for every text and valid config every chunk `chunkText` returns has
non-empty content with no leading or trailing whitespace; consequently a
whitespace-only input yields no chunks at all, and a short input with
surrounding whitespace comes back trimmed rather than verbatim
(`"  hi "` chunks to `["hi"]` under the default config). -/
theorem C10_chunks_trimmed_nonempty :
    (∀ (t : List Char) (cfg : ChunkConfig),
      0 ≤ cfg.chunkOverlap → cfg.chunkOverlap < cfg.maxChunkSize →
      ∃ cs, chunkText t cfg = some cs ∧
        (∀ c ∈ cs, c.content ≠ [] ∧ (∀ ch ∈ c.content.head?, isWs ch = false) ∧
          (∀ ch ∈ c.content.getLast?, isWs ch = false)) ∧
        ((∀ ch ∈ t, isWs ch = true) → cs = [])) ∧
    (chunkText [' ', ' ', 'h', 'i', ' '] defaultChunkConfig).map
      (fun cs => cs.map (fun c => c.content)) = some [['h', 'i']] := by
  constructor
  · intro t cfg h0 hlt
    obtain ⟨raw, hraw, _⟩ := splitRec_spec cfg.maxChunkSize cfg.chunkOverlap h0 hlt cfg.separators t
    refine ⟨(buildChunks cfg.chunkOverlap raw none 0 0).filter (fun c => !c.content.isEmpty),
      by simp [chunkText, hraw], ?_, ?_⟩
    · intro c hc
      have hmem := List.mem_of_mem_filter hc
      have hpred := List.of_mem_filter hc
      have hne : c.content ≠ [] := by
        intro hnil
        rw [hnil] at hpred
        simp at hpred
      obtain ⟨x, hx⟩ := buildChunks_shape cfg.chunkOverlap raw none 0 0 c hmem
      refine ⟨hne, ?_, ?_⟩
      · rw [hx]; exact trim_head_ws x
      · rw [hx]; exact trim_last_ws x
    · intro hws
      have hrawws := splitRec_ws cfg.maxChunkSize cfg.chunkOverlap cfg.separators t raw hws hraw
      have hempty := buildChunks_ws cfg.chunkOverlap raw none 0 0 hrawws (by intro pp hpp; cases hpp)
      refine List.filter_eq_nil_iff.mpr ?_
      intro ch hch
      simp [hempty ch hch]
  · decide

/-- Witness for `C10_chunks_trimmed_nonempty`: its universal part applied at
the text `" x "` and the config `maxChunkSize = 5, chunkOverlap = 1`. -/
theorem C10_chunks_trimmed_nonempty_witness :
    ∃ cs, chunkText [' ', 'x', ' ']
        { maxChunkSize := 5, chunkOverlap := 1,
          separators := defaultChunkConfig.separators, preserveStructure := true } = some cs ∧
      (∀ c ∈ cs, c.content ≠ [] ∧ (∀ ch ∈ c.content.head?, isWs ch = false) ∧
        (∀ ch ∈ c.content.getLast?, isWs ch = false)) ∧
      ((∀ ch ∈ [' ', 'x', ' '], isWs ch = true) → cs = []) :=
  C10_chunks_trimmed_nonempty.1 [' ', 'x', ' ']
    { maxChunkSize := 5, chunkOverlap := 1,
      separators := defaultChunkConfig.separators, preserveStructure := true }
    (by decide) (by decide)

end LightRail

namespace LightRail

/-! ## Helper lemmas: vector store -/

theorem foldl_oldest_mem :
    ∀ (l : List VectorDocument) (acc : Option VectorDocument) (o : VectorDocument),
      l.foldl
        (fun acc d =>
          match acc with
          | none => some d
          | some a => if d.createdAt < a.createdAt then some d else some a) acc = some o →
      acc = some o ∨ o ∈ l := by
  intro l
  induction l with
  | nil => intro acc o h; exact Or.inl h
  | cons d rest ih =>
    intro acc o h
    rcases ih _ o h with h' | h'
    · cases acc with
      | none =>
        simp only at h'
        right
        simp at h'
        simp [← h']
      | some a =>
        simp only at h'
        by_cases hlt : d.createdAt < a.createdAt
        · rw [if_pos hlt] at h'
          right
          simp at h'
          simp [← h']
        · rw [if_neg hlt] at h'
          exact Or.inl h'
    · exact Or.inr (List.mem_cons_of_mem d h')

theorem oldestDoc_mem (l : List VectorDocument) (o : VectorDocument)
    (h : oldestDoc l = some o) : o ∈ l := by
  rcases foldl_oldest_mem l none o h with h' | h'
  · cases h'
  · exact h'

theorem foldl_oldest_min :
    ∀ (l : List VectorDocument) (a : VectorDocument),
      (∀ x ∈ l, a.createdAt < x.createdAt) →
      l.foldl
        (fun acc d =>
          match acc with
          | none => some d
          | some a => if d.createdAt < a.createdAt then some d else some a) (some a) = some a := by
  intro l
  induction l with
  | nil => intro a _; rfl
  | cons x rest ih =>
    intro a ha
    have hx : a.createdAt < x.createdAt := ha x (by simp)
    have : ¬ x.createdAt < a.createdAt := by omega
    simp only [List.foldl_cons, if_neg this]
    exact ih a (fun y hy => ha y (List.mem_cons_of_mem x hy))

theorem oldestDoc_sorted (d : VectorDocument) (rest : List VectorDocument)
    (h : ∀ x ∈ rest, d.createdAt < x.createdAt) : oldestDoc (d :: rest) = some d := by
  simp only [oldestDoc, List.foldl_cons]
  exact foldl_oldest_min rest d h

theorem mapSet_of_not_mem :
    ∀ (l : List VectorDocument) (d : VectorDocument), d.id ∉ l.map (·.id) →
      mapSet l d = l ++ [d] := by
  intro l
  induction l with
  | nil => intro d _; rfl
  | cons x xs ih =>
    intro d hd
    simp only [List.map_cons, List.mem_cons] at hd
    push_neg at hd
    have hne : ¬ x.id = d.id := fun h => hd.1 h.symm
    simp only [mapSet, if_neg hne]
    rw [ih d hd.2]
    simp

theorem length_mapSet_of_mem :
    ∀ (l : List VectorDocument) (d : VectorDocument), d.id ∈ l.map (·.id) →
      (mapSet l d).length = l.length := by
  intro l
  induction l with
  | nil => intro d hd; simp at hd
  | cons x xs ih =>
    intro d hd
    by_cases hx : x.id = d.id
    · simp [mapSet, hx]
    · simp only [mapSet, if_neg hx, List.length_cons]
      simp only [List.map_cons, List.mem_cons] at hd
      rcases hd with hd | hd
      · exact absurd hd.symm hx
      · rw [ih d hd]

theorem mem_ids_mapDelete :
    ∀ (l : List VectorDocument) (i j : List Char), j ≠ i →
      (j ∈ (mapDelete l i).map (·.id) ↔ j ∈ l.map (·.id)) := by
  intro l
  induction l with
  | nil => intro i j _; simp [mapDelete]
  | cons x xs ih =>
    intro i j hji
    by_cases hx : x.id = i
    · simp only [mapDelete, if_pos hx, List.map_cons, List.mem_cons]
      constructor
      · intro h; exact Or.inr h
      · intro h
        rcases h with h | h
        · exact absurd (h.trans hx) hji
        · exact h
    · simp only [mapDelete, if_neg hx, List.map_cons, List.mem_cons]
      rw [ih i j hji]

theorem length_mapDelete_of_mem :
    ∀ (l : List VectorDocument) (i : List Char), i ∈ l.map (·.id) →
      (mapDelete l i).length + 1 = l.length := by
  intro l
  induction l with
  | nil => intro i hi; simp at hi
  | cons x xs ih =>
    intro i hi
    by_cases hx : x.id = i
    · simp [mapDelete, hx]
    · simp only [mapDelete, if_neg hx, List.length_cons]
      simp only [List.map_cons, List.mem_cons] at hi
      rcases hi with hi | hi
      · exact absurd hi.symm hx
      · rw [← ih i hi]

theorem not_mem_ids_mapDelete_self :
    ∀ (l : List VectorDocument) (i : List Char), (l.map (·.id)).Nodup →
      i ∉ (mapDelete l i).map (·.id) := by
  intro l
  induction l with
  | nil => intro i _; simp [mapDelete]
  | cons x xs ih =>
    intro i hnd
    simp only [List.map_cons, List.nodup_cons] at hnd
    by_cases hx : x.id = i
    · rw [mapDelete, if_pos hx]
      rw [← hx]
      exact hnd.1
    · rw [mapDelete, if_neg hx]
      simp only [List.map_cons, List.mem_cons]
      push_neg
      exact ⟨fun h => hx h.symm, ih i hnd.2⟩

theorem find?_mapSet_self :
    ∀ (l : List VectorDocument) (d : VectorDocument),
      (mapSet l d).find? (fun x => x.id = d.id) = some d := by
  intro l
  induction l with
  | nil => intro d; simp [mapSet, List.find?]
  | cons x xs ih =>
    intro d
    by_cases hx : x.id = d.id
    · simp [mapSet, hx, List.find?]
    · simp only [mapSet, if_neg hx]
      rw [List.find?_cons_of_neg _ (by simp [hx])]
      exact ih d

theorem find?_mapSet_ne :
    ∀ (l : List VectorDocument) (d : VectorDocument) (j : List Char), j ≠ d.id →
      (mapSet l d).find? (fun x => x.id = j) = l.find? (fun x => x.id = j) := by
  intro l
  induction l with
  | nil =>
    intro d j hj
    have hne : ¬ d.id = j := fun h => hj h.symm
    simp only [mapSet]
    rw [List.find?_cons_of_neg _ (by simp only [decide_eq_true_eq]; exact hne)]
  | cons x xs ih =>
    intro d j hj
    have hne : ¬ d.id = j := fun h => hj h.symm
    by_cases hx : x.id = d.id
    · have hxne : ¬ x.id = j := fun h => hne (hx ▸ h)
      simp only [mapSet, if_pos hx]
      rw [List.find?_cons_of_neg _ (by simp only [decide_eq_true_eq]; exact hne),
        List.find?_cons_of_neg _ (by simp only [decide_eq_true_eq]; exact hxne)]
    · simp only [mapSet, if_neg hx]
      by_cases hxj : x.id = j
      · rw [List.find?_cons_of_pos _ (by simp [hxj]), List.find?_cons_of_pos _ (by simp [hxj])]
      · rw [List.find?_cons_of_neg _ (by simp [hxj]), List.find?_cons_of_neg _ (by simp [hxj])]
        exact ih d j hj

theorem find?_mapDelete_ne :
    ∀ (l : List VectorDocument) (i j : List Char), j ≠ i →
      (mapDelete l i).find? (fun x => x.id = j) = l.find? (fun x => x.id = j) := by
  intro l
  induction l with
  | nil => intro i j _; rfl
  | cons x xs ih =>
    intro i j hj
    by_cases hx : x.id = i
    · have hxne : ¬ x.id = j := fun h => hj ((h.symm.trans hx).symm).symm
      simp only [mapDelete, if_pos hx]
      rw [List.find?_cons_of_neg _ (by simp only [decide_eq_true_eq]; exact hxne)]
    · simp only [mapDelete, if_neg hx]
      by_cases hxj : x.id = j
      · rw [List.find?_cons_of_pos _ (by simp [hxj]), List.find?_cons_of_pos _ (by simp [hxj])]
      · rw [List.find?_cons_of_neg _ (by simp [hxj]), List.find?_cons_of_neg _ (by simp [hxj])]
        exact ih i j hj

theorem find?_mapDelete_self :
    ∀ (l : List VectorDocument) (i : List Char), (l.map (·.id)).Nodup →
      (mapDelete l i).find? (fun x => x.id = i) = none := by
  intro l i hnd
  rw [List.find?_eq_none]
  intro x hx
  simp only [decide_eq_true_eq]
  intro hxi
  have hmem : x.id ∈ (mapDelete l i).map (·.id) := List.mem_map_of_mem (·.id) hx
  rw [hxi] at hmem
  exact not_mem_ids_mapDelete_self l i hnd hmem

theorem find?_of_mem_nodup :
    ∀ (l : List VectorDocument) (d : VectorDocument), (l.map (·.id)).Nodup → d ∈ l →
      l.find? (fun x => x.id = d.id) = some d := by
  intro l
  induction l with
  | nil => intro d _ hd; simp at hd
  | cons x xs ih =>
    intro d hnd hd
    simp only [List.map_cons, List.nodup_cons] at hnd
    rcases List.mem_cons.mp hd with hd | hd
    · subst hd
      rw [List.find?_cons_of_pos _ (by simp)]
    · by_cases hx : x.id = d.id
      · exfalso
        exact hnd.1 (hx ▸ List.mem_map_of_mem (·.id) hd)
      · rw [List.find?_cons_of_neg _ (by simp [hx])]
        exact ih d hnd.2 hd

theorem add_eq_no_evict (s : InMemoryVectorStore) (d : DocInput)
    (hdim : d.embedding.length = s.cfg.dimensions)
    (h : ∀ m, s.cfg.maxDocuments = some m → ¬(m ≠ 0 ∧ m ≤ s.docs.length)) :
    s.add d = some
      { s with
        docs := mapSet s.docs
          { id := d.id, content := d.content, embedding := d.embedding,
            metadata := d.metadata, createdAt := s.clock }
        clock := s.clock + 1 } := by
  rw [InMemoryVectorStore.add, if_neg (by simp [hdim])]
  cases hm : s.cfg.maxDocuments with
  | none => rfl
  | some m =>
    have := h m hm
    simp only [if_neg this]

theorem add_eq_evict (s : InMemoryVectorStore) (d : DocInput) (m : Nat) (o : VectorDocument)
    (hdim : d.embedding.length = s.cfg.dimensions)
    (hm : s.cfg.maxDocuments = some m)
    (hcond : m ≠ 0 ∧ m ≤ s.docs.length)
    (ho : oldestDoc s.docs = some o) :
    s.add d = some
      { s with
        docs := mapSet (mapDelete s.docs o.id)
          { id := d.id, content := d.content, embedding := d.embedding,
            metadata := d.metadata, createdAt := s.clock }
        clock := s.clock + 1 } := by
  rw [InMemoryVectorStore.add, if_neg (by simp [hdim])]
  simp only [hm, if_pos hcond, ho]

end LightRail

namespace LightRail

/-! ## Claims C1 and C7 -/

/-- C1 counterexample: a store with `maxDocuments = 2` holding documents
`A` (older) and `B`; re-adding id `B` (same dimension) does NOT overwrite in
place: the eviction scan still runs and removes the oldest document `A`, so
`size()` drops to 1 and `A` is gone — contradicting the claim that `size()`
stays 2 and every other document survives. -/
theorem C1_counterexample :
    ((emptyStore ⟨1, .cosine, some 2⟩).addAll
        [⟨['A'], ['a'], [1], none⟩, ⟨['B'], ['b'], [1], none⟩,
         ⟨['B'], ['b', '2'], [1], none⟩]).map
      (fun s => (s.size, (s.get ['A']).isSome, s.docs.map (·.id))) =
      some (1, false, [['B']]) := by
  decide

/-- C1 (amended): re-adding an existing id `X` overwrites the entry for `X`,
but a store at capacity still runs the eviction scan first and removes the
document with the oldest `createdAt`: when `X` is itself the oldest, `size()`
stays `N` and every other document is untouched; otherwise the oldest other
document is evicted and `size()` drops to `N - 1`. -/
theorem C1_readd_still_evicts (s : InMemoryVectorStore) (X : DocInput) (N : Nat)
    (o : VectorDocument)
    (hm : s.cfg.maxDocuments = some N) (hN : 0 < N)
    (hsize : s.docs.length = N)
    (hnd : (s.docs.map (·.id)).Nodup)
    (hmem : X.id ∈ s.docs.map (·.id))
    (hdim : X.embedding.length = s.cfg.dimensions)
    (ho : oldestDoc s.docs = some o) :
    ∃ s', s.add X = some s' ∧
      s'.size = (if o.id = X.id then N else N - 1) ∧
      (∀ d ∈ s.docs, d.id ≠ X.id → d.id ≠ o.id → s'.get d.id = some d) ∧
      (o.id ≠ X.id → s'.get o.id = none) ∧
      (∃ dX, s'.get X.id = some dX ∧ dX.content = X.content ∧ dX.embedding = X.embedding) := by
  have hadd := add_eq_evict s X N o hdim hm ⟨by omega, by omega⟩ ho
  have homem : o ∈ s.docs := oldestDoc_mem s.docs o ho
  have hlen1 : (mapDelete s.docs o.id).length + 1 = N :=
    hsize ▸ length_mapDelete_of_mem s.docs o.id (List.mem_map_of_mem (·.id) homem)
  refine ⟨_, hadd, ?_, ?_, ?_, ?_⟩
  · show (mapSet (mapDelete s.docs o.id)
      ⟨X.id, X.content, X.embedding, X.metadata, s.clock⟩).length = _
    by_cases hoX : o.id = X.id
    · rw [if_pos hoX]
      have hnotin : X.id ∉ (mapDelete s.docs o.id).map (·.id) := by
        rw [← hoX]
        exact not_mem_ids_mapDelete_self s.docs o.id hnd
      rw [mapSet_of_not_mem _ _ hnotin]
      simp
      omega
    · rw [if_neg hoX]
      have hin : X.id ∈ (mapDelete s.docs o.id).map (·.id) :=
        (mem_ids_mapDelete s.docs o.id X.id (fun h => hoX h.symm)).mpr hmem
      rw [length_mapSet_of_mem _ _ hin]
      omega
  · intro d hd hdX hdo
    show (mapSet (mapDelete s.docs o.id)
      ⟨X.id, X.content, X.embedding, X.metadata, s.clock⟩).find? (fun x => x.id = d.id) = some d
    rw [find?_mapSet_ne _ _ d.id hdX, find?_mapDelete_ne _ _ d.id hdo]
    exact find?_of_mem_nodup s.docs d hnd hd
  · intro hoX
    show (mapSet (mapDelete s.docs o.id)
      ⟨X.id, X.content, X.embedding, X.metadata, s.clock⟩).find? (fun x => x.id = o.id) = none
    rw [find?_mapSet_ne _ _ o.id hoX]
    exact find?_mapDelete_self s.docs o.id hnd
  · refine ⟨⟨X.id, X.content, X.embedding, X.metadata, s.clock⟩, ?_, rfl, rfl⟩
    exact find?_mapSet_self (mapDelete s.docs o.id)
      ⟨X.id, X.content, X.embedding, X.metadata, s.clock⟩

/-- Witness for `C1_readd_still_evicts`: a concrete store with two documents
`A` (createdAt 0) and `B` (createdAt 1), `maxDocuments = 2`, re-adding `B`. -/
theorem C1_readd_still_evicts_witness :
    ∃ s', (InMemoryVectorStore.add
        ⟨⟨1, .cosine, some 2⟩,
         [⟨['A'], ['a'], [1], none, 0⟩, ⟨['B'], ['b'], [1], none, 1⟩], 2⟩
        ⟨['B'], ['b', '2'], [1], none⟩) = some s' ∧
      s'.size = (if (⟨['A'], ['a'], [1], none, 0⟩ : VectorDocument).id = (⟨['B'], ['b', '2'], [1], none⟩ : DocInput).id then 2 else 2 - 1) ∧
      (∀ d ∈ [(⟨['A'], ['a'], [1], none, 0⟩ : VectorDocument), ⟨['B'], ['b'], [1], none, 1⟩],
        d.id ≠ (⟨['B'], ['b', '2'], [1], none⟩ : DocInput).id →
        d.id ≠ (⟨['A'], ['a'], [1], none, 0⟩ : VectorDocument).id → s'.get d.id = some d) ∧
      ((⟨['A'], ['a'], [1], none, 0⟩ : VectorDocument).id ≠ (⟨['B'], ['b', '2'], [1], none⟩ : DocInput).id →
        s'.get (⟨['A'], ['a'], [1], none, 0⟩ : VectorDocument).id = none) ∧
      (∃ dX, s'.get (⟨['B'], ['b', '2'], [1], none⟩ : DocInput).id = some dX ∧
        dX.content = (⟨['B'], ['b', '2'], [1], none⟩ : DocInput).content ∧
        dX.embedding = (⟨['B'], ['b', '2'], [1], none⟩ : DocInput).embedding) :=
  C1_readd_still_evicts
    ⟨⟨1, .cosine, some 2⟩,
     [⟨['A'], ['a'], [1], none, 0⟩, ⟨['B'], ['b'], [1], none, 1⟩], 2⟩
    ⟨['B'], ['b', '2'], [1], none⟩ 2 ⟨['A'], ['a'], [1], none, 0⟩
    rfl (by decide) rfl (by decide) (by decide) rfl (by decide)

theorem foldl_mapSet_fresh :
    ∀ (l acc : List VectorDocument),
      (∀ d ∈ l, d.id ∉ acc.map (·.id)) → (l.map (·.id)).Nodup →
      l.foldl mapSet acc = acc ++ l := by
  intro l
  induction l with
  | nil => intro acc _ _; simp
  | cons d rest ih =>
    intro acc hfresh hnd
    simp only [List.map_cons, List.nodup_cons] at hnd
    have h1 : mapSet acc d = acc ++ [d] := mapSet_of_not_mem acc d (hfresh d (by simp))
    simp only [List.foldl_cons, h1]
    rw [ih (acc ++ [d]) ?_ hnd.2]
    · simp
    · intro x hx
      simp only [List.map_append, List.map_cons, List.map_nil, List.mem_append,
        List.mem_singleton]
      push_neg
      constructor
      · exact hfresh x (List.mem_cons_of_mem d hx)
      · intro hxe
        exact hnd.1 (hxe ▸ List.mem_map_of_mem (·.id) hx)

/-- C7: exporting a store and importing the snapshot into a fresh store with
the same configuration reproduces the document collection exactly: same
`size()` and, for every id, the same lookup result (hence identical content
and embedding per id).  The one well-formedness assumption is the `Map`
invariant that ids in the store are pairwise distinct. -/
theorem C7_export_import_roundtrip (s : InMemoryVectorStore)
    (hnd : (s.docs.map (·.id)).Nodup) :
    ((emptyStore s.cfg).importDocs s.exportDocs).size = s.size ∧
    ∀ i, ((emptyStore s.cfg).importDocs s.exportDocs).get i = s.get i := by
  have hdocs : ((emptyStore s.cfg).importDocs s.exportDocs).docs = s.docs := by
    show s.exportDocs.foldl mapSet [] = s.docs
    have := foldl_mapSet_fresh s.exportDocs [] (by simp) hnd
    simpa using this
  constructor
  · show ((emptyStore s.cfg).importDocs s.exportDocs).docs.length = s.docs.length
    rw [hdocs]
  · intro i
    show ((emptyStore s.cfg).importDocs s.exportDocs).docs.find? _ = s.docs.find? _
    rw [hdocs]

/-- Witness for `C7_export_import_roundtrip`: a concrete two-document
store round-trips to the same size and the same lookup for id `A`. -/
theorem C7_export_import_roundtrip_witness :
    ((emptyStore ⟨1, .cosine, some 2⟩).importDocs
        [⟨['A'], ['a'], [1], none, 0⟩, ⟨['B'], ['b'], [1], none, 1⟩]).size = 2 ∧
    ((emptyStore ⟨1, .cosine, some 2⟩).importDocs
        [⟨['A'], ['a'], [1], none, 0⟩, ⟨['B'], ['b'], [1], none, 1⟩]).get ['A'] =
      some ⟨['A'], ['a'], [1], none, 0⟩ := by
  have h := C7_export_import_roundtrip
    ⟨⟨1, .cosine, some 2⟩, [⟨['A'], ['a'], [1], none, 0⟩, ⟨['B'], ['b'], [1], none, 1⟩], 2⟩
    (by decide)
  exact ⟨h.1.trans (by decide), (h.2 ['A']).trans (by decide)⟩

end LightRail

namespace LightRail

/-! ## Claim C2: LRU capacity eviction -/

theorem addAll_lru (cfg : VectorStoreConfig) (N : Nat)
    (hm : cfg.maxDocuments = some N) (hN : 0 < N) :
    ∀ (inputs : List DocInput) (s : InMemoryVectorStore),
      s.cfg = cfg →
      s.docs.length ≤ N →
      s.docs.Pairwise (fun a b => a.createdAt < b.createdAt) →
      (∀ d ∈ s.docs, d.createdAt < s.clock) →
      (∀ d ∈ inputs, d.embedding.length = cfg.dimensions) →
      (s.docs.map (·.id) ++ inputs.map DocInput.id).Nodup →
      ∃ s', s.addAll inputs = some s' ∧
        s'.docs.map (fun d => (d.id, d.content, d.embedding, d.metadata)) =
          ((s.docs.map (fun d => (d.id, d.content, d.embedding, d.metadata))) ++
            inputs.map (fun i => (i.id, i.content, i.embedding, i.metadata))).drop
            (s.docs.length + inputs.length - N) := by
  intro inputs
  induction inputs with
  | nil =>
    intro s _ hlen _ _ _ _
    refine ⟨s, rfl, ?_⟩
    simp only [List.map_nil, List.append_nil, List.length_nil]
    rw [show s.docs.length + 0 - N = 0 from by omega, List.drop_zero]
  | cons d rest ih =>
    intro s hcfg hlen hsort hclock hdim hnd
    have hd : d.embedding.length = s.cfg.dimensions := by
      rw [hcfg]; exact hdim d (by simp)
    have hfresh : d.id ∉ s.docs.map (·.id) := by
      intro hmemid
      rcases List.nodup_append.mp hnd with ⟨_, _, hdisj⟩
      exact hdisj hmemid (by simp)
    by_cases hcap : N ≤ s.docs.length
    · -- at capacity: evict the head (the oldest document)
      have hlenN : s.docs.length = N := by omega
      rcases hdocs : s.docs with _ | ⟨h0, tl⟩
      · rw [hdocs] at hlenN; simp at hlenN; omega
      · have hsort' : (h0 :: tl).Pairwise (fun a b => a.createdAt < b.createdAt) :=
          hdocs ▸ hsort
        have hoh : oldestDoc s.docs = some h0 := by
          rw [hdocs]
          exact oldestDoc_sorted h0 tl (List.pairwise_cons.mp hsort').1
        have hadd := add_eq_evict s d N h0 hd (hcfg ▸ hm) ⟨by omega, hcap⟩ hoh
        have hdel : mapDelete s.docs h0.id = tl := by
          rw [hdocs]; simp [mapDelete]
        have hfresh' : d.id ∉ tl.map (·.id) := by
          intro hmemid
          apply hfresh
          rw [hdocs]
          exact List.mem_cons_of_mem _ hmemid
        have hset : mapSet (mapDelete s.docs h0.id)
            ⟨d.id, d.content, d.embedding, d.metadata, s.clock⟩ =
            tl ++ [⟨d.id, d.content, d.embedding, d.metadata, s.clock⟩] := by
          rw [hdel]
          exact mapSet_of_not_mem tl _ hfresh'
        rw [hset] at hadd
        have htl_len : tl.length + 1 = N := by
          rw [hdocs] at hlenN; simpa using hlenN
        have htl_mem : ∀ x ∈ tl, x ∈ s.docs := by
          intro x hx; rw [hdocs]; exact List.mem_cons_of_mem _ hx
        obtain ⟨s', hs', heq⟩ := ih
          { s with
            docs := tl ++ [⟨d.id, d.content, d.embedding, d.metadata, s.clock⟩]
            clock := s.clock + 1 }
          hcfg (by simp; omega)
          (by
            rw [List.pairwise_append]
            refine ⟨(List.pairwise_cons.mp hsort').2, by simp, ?_⟩
            intro a ha b hb
            have : b = (⟨d.id, d.content, d.embedding, d.metadata, s.clock⟩ :
                VectorDocument) := by simpa using hb
            subst this
            exact hclock a (htl_mem a ha))
          (by
            intro x hx
            simp only [List.mem_append, List.mem_singleton] at hx
            rcases hx with hx | hx
            · have := hclock x (htl_mem x hx); simp; omega
            · subst hx; simp)
          (fun x hx => hdim x (List.mem_cons_of_mem d hx))
          (by
            have hsub : (tl.map (·.id) ++ (d.id :: rest.map DocInput.id)).Nodup := by
              have h2 : (h0.id :: (tl.map (·.id) ++ (d.id :: rest.map DocInput.id))).Nodup := by
                simpa [hdocs] using hnd
              exact h2.of_cons
            simpa using hsub)
        refine ⟨s', ?_, ?_⟩
        · show InMemoryVectorStore.addAll s (d :: rest) = some s'
          simp only [InMemoryVectorStore.addAll, hadd]
          exact hs'
        · rw [heq]
          simp only [List.map_cons, List.map_append, List.map_cons, List.map_nil,
            List.length_cons, List.length_append, List.length_nil, List.cons_append]
          have e1 : tl.length + 1 + (rest.length + 1) - N = rest.length + 1 := by omega
          have e2 : tl.length + (1 + 0) + rest.length - N = rest.length := by omega
          rw [e1, e2, List.drop_succ_cons]
          congr 1
          simp
    · -- below capacity: plain append
      have hadd := add_eq_no_evict s d hd (by
        intro m hmm
        rw [hcfg, hm] at hmm
        injection hmm with hmN
        subst hmN
        push_neg
        intro _
        omega)
      have hset : mapSet s.docs ⟨d.id, d.content, d.embedding, d.metadata, s.clock⟩ =
          s.docs ++ [⟨d.id, d.content, d.embedding, d.metadata, s.clock⟩] :=
        mapSet_of_not_mem s.docs _ hfresh
      rw [hset] at hadd
      obtain ⟨s', hs', heq⟩ := ih
        { s with
          docs := s.docs ++ [⟨d.id, d.content, d.embedding, d.metadata, s.clock⟩]
          clock := s.clock + 1 }
        hcfg (by simp; omega)
        (by
          rw [List.pairwise_append]
          refine ⟨hsort, by simp, ?_⟩
          intro a ha b hb
          have : b = (⟨d.id, d.content, d.embedding, d.metadata, s.clock⟩ :
              VectorDocument) := by simpa using hb
          subst this
          exact hclock a ha)
        (by
          intro x hx
          simp only [List.mem_append, List.mem_singleton] at hx
          rcases hx with hx | hx
          · have := hclock x hx; simp; omega
          · subst hx; simp)
        (fun x hx => hdim x (List.mem_cons_of_mem d hx))
        (by
          have : (s.docs.map (·.id) ++ (d.id :: rest.map DocInput.id)).Nodup := hnd
          simpa using this)
      refine ⟨s', ?_, ?_⟩
      · show InMemoryVectorStore.addAll s (d :: rest) = some s'
        simp only [InMemoryVectorStore.addAll, hadd]
        exact hs'
      · rw [heq]
        simp only [List.map_cons, List.map_append, List.map_nil,
          List.length_cons, List.length_append, List.length_nil]
        congr 1
        · omega
        · simp

end LightRail

namespace LightRail

/-- C2: starting from an empty store with `maxDocuments = N > 0`, any
sequence of successful `add` calls with pairwise-distinct ids (embeddings of
the configured dimension) leaves at most `N` documents, and the survivors
are exactly the `N` most recently added (in insertion order); in particular
`maxDocuments = 2` with three adds leaves `size() = 2` and the two latest
ids. -/
theorem C2_capacity_lru :
    (∀ (cfg : VectorStoreConfig) (N : Nat), cfg.maxDocuments = some N → 0 < N →
      ∀ inputs : List DocInput,
        (∀ d ∈ inputs, d.embedding.length = cfg.dimensions) →
        (inputs.map DocInput.id).Nodup →
        ∃ s', (emptyStore cfg).addAll inputs = some s' ∧
          s'.size ≤ N ∧
          s'.docs.map (fun d => (d.id, d.content, d.embedding, d.metadata)) =
            (inputs.map (fun i => (i.id, i.content, i.embedding, i.metadata))).drop
              (inputs.length - N)) ∧
    ((emptyStore ⟨1, .cosine, some 2⟩).addAll
        [⟨['A'], ['a'], [1], none⟩, ⟨['B'], ['b'], [1], none⟩,
         ⟨['C'], ['c'], [1], none⟩]).map
      (fun s => (s.size, s.docs.map (·.id))) = some (2, [['B'], ['C']]) := by
  constructor
  · intro cfg N hm hN inputs hdim hnd
    obtain ⟨s', hs', heq⟩ := addAll_lru cfg N hm hN inputs (emptyStore cfg)
      rfl (by simp [emptyStore]) (by simp [emptyStore])
      (by simp [emptyStore]) hdim (by simpa [emptyStore] using hnd)
    refine ⟨s', hs', ?_, ?_⟩
    · show s'.docs.length ≤ N
      have hlen : (s'.docs.map (fun d => (d.id, d.content, d.embedding, d.metadata))).length =
          ((inputs.map (fun i => (i.id, i.content, i.embedding, i.metadata))).drop
            (inputs.length - N)).length := by
        rw [heq]
        simp [emptyStore]
      simp only [List.length_map, List.length_drop] at hlen
      omega
    · rw [heq]
      simp [emptyStore]
  · decide

/-- Witness for `C2_capacity_lru`: its universal part applied to
`maxDocuments = 2` and three concrete inserts with distinct ids. -/
theorem C2_capacity_lru_witness :
    ∃ s', (emptyStore ⟨1, .cosine, some 2⟩).addAll
        [⟨['A'], ['a'], [1], none⟩, ⟨['B'], ['b'], [1], none⟩,
         ⟨['C'], ['c'], [1], none⟩] = some s' ∧
      s'.size ≤ 2 ∧
      s'.docs.map (fun d => (d.id, d.content, d.embedding, d.metadata)) =
        (([⟨['A'], ['a'], [1], none⟩, ⟨['B'], ['b'], [1], none⟩,
          ⟨['C'], ['c'], [1], none⟩] : List DocInput).map
            (fun i => (i.id, i.content, i.embedding, i.metadata))).drop
          (([⟨['A'], ['a'], [1], none⟩, ⟨['B'], ['b'], [1], none⟩,
            ⟨['C'], ['c'], [1], none⟩] : List DocInput).length - 2) :=
  C2_capacity_lru.1 ⟨1, .cosine, some 2⟩ 2 rfl (by decide)
    [⟨['A'], ['a'], [1], none⟩, ⟨['B'], ['b'], [1], none⟩, ⟨['C'], ['c'], [1], none⟩]
    (by decide) (by decide)

end LightRail

namespace LightRail

/-! ## Helper lemmas: search sorting, context building -/

theorem length_insertDesc (r : SearchResult) :
    ∀ l, (insertDesc r l).length = l.length + 1 := by
  intro l
  induction l with
  | nil => rfl
  | cons x xs ih =>
    by_cases h : x.score ≤ r.score
    · simp [insertDesc, h]
    · simp [insertDesc, h, ih]

theorem mem_insertDesc (r : SearchResult) :
    ∀ l x, x ∈ insertDesc r l ↔ x = r ∨ x ∈ l := by
  intro l
  induction l with
  | nil => intro x; simp [insertDesc]
  | cons y ys ih =>
    intro x
    by_cases h : y.score ≤ r.score
    · simp [insertDesc, h]
    · simp only [insertDesc, if_neg h, List.mem_cons, ih]
      tauto

theorem insertDesc_sorted (r : SearchResult) :
    ∀ l, l.Pairwise (fun a b => b.score ≤ a.score) →
      (insertDesc r l).Pairwise (fun a b => b.score ≤ a.score) := by
  intro l
  induction l with
  | nil => intro _; simp [insertDesc]
  | cons x xs ih =>
    intro h
    rcases List.pairwise_cons.mp h with ⟨hx, hxs⟩
    by_cases hc : x.score ≤ r.score
    · rw [insertDesc, if_pos hc]
      refine List.pairwise_cons.mpr ⟨?_, h⟩
      intro y hy
      rcases List.mem_cons.mp hy with hy | hy
      · rw [hy]; exact hc
      · exact le_trans (hx y hy) hc
    · rw [insertDesc, if_neg hc]
      refine List.pairwise_cons.mpr ⟨?_, ih hxs⟩
      intro y hy
      rcases (mem_insertDesc r xs y).mp hy with hy | hy
      · rw [hy]; exact le_of_lt (not_le.mp hc)
      · exact hx y hy

theorem sortDesc_length : ∀ l : List SearchResult, (sortDesc l).length = l.length := by
  intro l
  induction l with
  | nil => rfl
  | cons x xs ih =>
    show (insertDesc x (sortDesc xs)).length = xs.length + 1
    rw [length_insertDesc, ih]

theorem mem_sortDesc : ∀ (l : List SearchResult) (x), x ∈ sortDesc l ↔ x ∈ l := by
  intro l
  induction l with
  | nil => intro x; rfl
  | cons y ys ih =>
    intro x
    show x ∈ insertDesc y (sortDesc ys) ↔ _
    rw [mem_insertDesc]
    simp [ih]

theorem sortDesc_sorted :
    ∀ l : List SearchResult, (sortDesc l).Pairwise (fun a b => b.score ≤ a.score) := by
  intro l
  induction l with
  | nil => simp [sortDesc]
  | cons x xs ih => exact insertDesc_sorted x (sortDesc xs) ih

theorem joinSep_cons_head (sep x : List Char) (l : List (List Char)) :
    ∃ post, joinSep sep (x :: l) = x ++ post := by
  cases l with
  | nil => exact ⟨[], by simp [joinSep]⟩
  | cons y rest => exact ⟨sep ++ joinSep sep (y :: rest), by simp [joinSep, List.append_assoc]⟩

theorem joinSep_last (sep x : List Char) :
    ∀ parts, ∃ pre, joinSep sep (parts ++ [x]) = pre ++ x := by
  intro parts
  induction parts with
  | nil => exact ⟨[], rfl⟩
  | cons p rest ih =>
    obtain ⟨pre, hpre⟩ := ih
    cases hr : rest ++ [x] with
    | nil => exact absurd hr (by simp)
    | cons z zs =>
      refine ⟨p ++ sep ++ pre, ?_⟩
      show joinSep sep (p :: (rest ++ [x])) = p ++ sep ++ pre ++ x
      rw [hr]
      show p ++ sep ++ joinSep sep (z :: zs) = p ++ sep ++ pre ++ x
      rw [← hr, hpre, List.append_assoc, List.append_assoc, List.append_assoc]

theorem formatDocument_ends_with_content (cfg : RetrievalConfig) (r : SearchResult) :
    ∃ pre, formatDocument cfg r = pre ++ r.document.content := by
  unfold formatDocument
  exact joinSep_last ['\n'] r.document.content _

theorem buildCtxGo_accumulates (cfg : RetrievalConfig) :
    ∀ (l : List SearchResult) (cur : Nat) (parts : List (List Char)),
      ∃ post, buildCtxGo cfg l cur parts = parts ++ post := by
  intro l
  induction l with
  | nil => intro cur parts; exact ⟨[], by simp [buildCtxGo]⟩
  | cons r rest ih =>
    intro cur parts
    by_cases h : cfg.maxContextLength < cur + (formatDocument cfg r).length
    · exact ⟨[], by simp [buildCtxGo, h]⟩
    · obtain ⟨post, hpost⟩ := ih (cur + (formatDocument cfg r).length) (parts ++ [formatDocument cfg r])
      refine ⟨[formatDocument cfg r] ++ post, ?_⟩
      simp only [buildCtxGo, if_neg h]
      rw [hpost, List.append_assoc]

end LightRail

namespace LightRail

/-! ## Claims C5 and C6 -/

/-- C5: with a query of the configured dimension, `search` returns (without
error) at most `topK` results, sorted by non-increasing score; the result
count is exactly `min topK (number of documents passing the filter)` — so
fewer than `topK` when fewer documents match, and an empty list (not an
error) when the store or the filtered set is empty; the score of every result is
the score formula of the configured metric (cosine similarity or
`1 / (1 + euclidean distance)`) applied to the embedding of that document. -/
theorem C5_search_topk_sorted (cos dist : List ℚ → List ℚ → ℚ)
    (s : InMemoryVectorStore) (query : List ℚ) (topK : Nat)
    (filt : VectorDocument → Bool) (hq : query.length = s.cfg.dimensions) :
    ∃ rs, s.search cos dist query topK filt = some rs ∧
      rs.length = min topK (s.docs.filter filt).length ∧
      rs.Pairwise (fun a b => b.score ≤ a.score) ∧
      (∀ r ∈ rs, r.document ∈ s.docs ∧ filt r.document = true ∧
        r.score = (scoreOf cos dist s.cfg.similarityMetric query r.document.embedding).1) ∧
      ((s.docs.filter filt).length = 0 → rs = []) := by
  have hpass : ¬ query.length ≠ s.cfg.dimensions := by simp [hq]
  refine ⟨_, by rw [InMemoryVectorStore.search, if_neg hpass], ?_, ?_, ?_, ?_⟩
  · rw [List.length_take, sortDesc_length, List.length_map]
  · exact List.Pairwise.sublist (List.take_sublist _ _) (sortDesc_sorted _)
  · intro r hr
    have hr1 : r ∈ sortDesc ((s.docs.filter filt).map
        (fun d =>
          let sd := scoreOf cos dist s.cfg.similarityMetric query d.embedding
          { document := d, score := sd.1, distance := sd.2 })) :=
      List.take_subset _ _ hr
    rw [mem_sortDesc] at hr1
    obtain ⟨d, hd, hrd⟩ := List.mem_map.mp hr1
    refine ⟨?_, ?_, ?_⟩
    · rw [← hrd]; exact List.mem_of_mem_filter hd
    · rw [← hrd]; exact List.of_mem_filter hd
    · rw [← hrd]
  · intro h0
    have : (s.docs.filter filt) = [] := List.length_eq_zero.mp h0
    simp [this, sortDesc]

/-- Witness for `C5_search_topk_sorted`: a concrete one-document store
searched with a dimension-1 query. -/
theorem C5_search_topk_sorted_witness :
    ∃ rs, (⟨⟨1, .cosine, some 2⟩, [⟨['d'], ['x'], [1], none, 0⟩], 1⟩ :
        InMemoryVectorStore).search (fun _ _ => 1) (fun _ _ => 0) [1] 5
        (fun _ => true) = some rs ∧
      rs.length = min 5 (((⟨⟨1, .cosine, some 2⟩, [⟨['d'], ['x'], [1], none, 0⟩], 1⟩ :
        InMemoryVectorStore).docs.filter (fun _ => true)).length) ∧
      rs.Pairwise (fun a b => b.score ≤ a.score) ∧
      (∀ r ∈ rs, r.document ∈ (⟨⟨1, .cosine, some 2⟩, [⟨['d'], ['x'], [1], none, 0⟩], 1⟩ :
          InMemoryVectorStore).docs ∧ (fun _ => true) r.document = true ∧
        r.score = (scoreOf (fun _ _ => 1) (fun _ _ => 0)
          (⟨⟨1, .cosine, some 2⟩, [⟨['d'], ['x'], [1], none, 0⟩], 1⟩ :
            InMemoryVectorStore).cfg.similarityMetric [1] r.document.embedding).1) ∧
      ((((⟨⟨1, .cosine, some 2⟩, [⟨['d'], ['x'], [1], none, 0⟩], 1⟩ :
        InMemoryVectorStore).docs.filter (fun _ => true)).length = 0) → rs = []) :=
  C5_search_topk_sorted (fun _ _ => 1) (fun _ _ => 0)
    ⟨⟨1, .cosine, some 2⟩, [⟨['d'], ['x'], [1], none, 0⟩], 1⟩ [1] 5 (fun _ => true) rfl

/-- C6 counterexample: a store with one document (content `"xx"`, score 1 ≥
`minScore = 0`) retrieved with `maxContextLength = 1`: the document is
returned in `documents`, yet `context` is empty — the best candidate's
content is NOT included in the context, because `buildContext` drops any
document whose formatted length exceeds `maxContextLength`, including the
top-ranked one. -/
theorem C6_counterexample :
    (retrieve (fun _ _ => 1) (fun _ _ => 0)
        ⟨⟨1, .cosine, some 2⟩, [⟨['d'], ['x', 'x'], [1], none, 0⟩], 1⟩
        ['q'] [1] ⟨5, 0, 1, true⟩).map
      (fun res => (res.documents.length, res.context)) = some (1, []) := by
  decide

/-- C6 (amended): a retrieval whose candidates all score below `minScore`
returns, without error, an empty `documents` sequence, an empty `context`
and a zero token estimate; and when the best candidate's score reaches
`minScore`, its content is included in the context string provided its
formatted document fits within `maxContextLength` (otherwise the context can
be empty even though `documents` is not). -/
theorem C6_below_min_empty_above_included :
    (∀ (cos dist : List ℚ → List ℚ → ℚ) (s : InMemoryVectorStore)
      (query : List Char) (qe : List ℚ) (rcfg : RetrievalConfig) (rs : List SearchResult),
      s.search cos dist qe rcfg.topK (fun _ => true) = some rs →
      (∀ r ∈ rs, r.score < rcfg.minScore) →
      retrieve cos dist s query qe rcfg = some ⟨query, [], [], 0⟩) ∧
    (∀ (cos dist : List ℚ → List ℚ → ℚ) (s : InMemoryVectorStore)
      (query : List Char) (qe : List ℚ) (rcfg : RetrievalConfig)
      (r : SearchResult) (rest : List SearchResult),
      s.search cos dist qe rcfg.topK (fun _ => true) = some (r :: rest) →
      rcfg.minScore ≤ r.score →
      (formatDocument rcfg r).length ≤ rcfg.maxContextLength →
      ∃ res, retrieve cos dist s query qe rcfg = some res ∧ res.documents ≠ [] ∧
        ∃ pre post, res.context = pre ++ r.document.content ++ post) := by
  constructor
  · intro cos dist s query qe rcfg rs hsearch hlow
    rw [retrieve, hsearch]
    have hfil : rs.filter (fun r => rcfg.minScore ≤ r.score) = [] := by
      refine List.filter_eq_nil_iff.mpr ?_
      intro r hr
      simp only [decide_eq_true_eq]
      push_neg
      exact hlow r hr
    simp only [hfil]
    simp [buildContext, buildCtxGo, joinSep]
  · intro cos dist s query qe rcfg r rest hsearch hmin hfit
    rw [retrieve, hsearch]
    have hfil : (r :: rest).filter (fun x => rcfg.minScore ≤ x.score) =
        r :: rest.filter (fun x => rcfg.minScore ≤ x.score) :=
      List.filter_cons_of_pos (by simp [hmin])
    simp only [hfil]
    refine ⟨_, rfl, by simp, ?_⟩
    have hnotbreak : ¬ rcfg.maxContextLength < 0 + (formatDocument rcfg r).length := by
      omega
    obtain ⟨post0, hpost0⟩ := buildCtxGo_accumulates rcfg
      (rest.filter (fun x => rcfg.minScore ≤ x.score))
      (0 + (formatDocument rcfg r).length) ([] ++ [formatDocument rcfg r])
    obtain ⟨post1, hpost1⟩ := joinSep_cons_head ['\n', '\n', '-', '-', '-', '\n', '\n']
      (formatDocument rcfg r) post0
    obtain ⟨pre, hpre⟩ := formatDocument_ends_with_content rcfg r
    refine ⟨pre, post1, ?_⟩
    show buildContext rcfg (r :: rest.filter (fun x => rcfg.minScore ≤ x.score)) = _
    rw [buildContext]
    show joinSep _ (buildCtxGo rcfg (r :: rest.filter (fun x => rcfg.minScore ≤ x.score)) 0 []) = _
    rw [show buildCtxGo rcfg (r :: rest.filter (fun x => rcfg.minScore ≤ x.score)) 0 [] =
        buildCtxGo rcfg (rest.filter (fun x => rcfg.minScore ≤ x.score))
          (0 + (formatDocument rcfg r).length) ([] ++ [formatDocument rcfg r]) from by
      simp only [buildCtxGo, if_neg hnotbreak]]
    rw [hpost0]
    simp only [List.nil_append, List.singleton_append]
    rw [hpost1, hpre, List.append_assoc]

/-- Witness for `C6_below_min_empty_above_included`: both parts applied to a
concrete one-document store — with `minScore = 2` every candidate (score 1)
is filtered out and the result is empty; with `minScore = 0` and a large
`maxContextLength` the content of the document appears in the context. -/
theorem C6_below_min_empty_above_included_witness :
    retrieve (fun _ _ => 1) (fun _ _ => 0)
        ⟨⟨1, .cosine, some 2⟩, [⟨['d'], ['x', 'x'], [1], none, 0⟩], 1⟩
        ['q'] [1] ⟨5, 2, 100, true⟩ = some ⟨['q'], [], [], 0⟩ ∧
    ∃ res, retrieve (fun _ _ => 1) (fun _ _ => 0)
        ⟨⟨1, .cosine, some 2⟩, [⟨['d'], ['x', 'x'], [1], none, 0⟩], 1⟩
        ['q'] [1] ⟨5, 0, 100, true⟩ = some res ∧ res.documents ≠ [] ∧
      ∃ pre post, res.context = pre ++ ['x', 'x'] ++ post :=
  ⟨C6_below_min_empty_above_included.1 (fun _ _ => 1) (fun _ _ => 0)
      ⟨⟨1, .cosine, some 2⟩, [⟨['d'], ['x', 'x'], [1], none, 0⟩], 1⟩
      ['q'] [1] ⟨5, 2, 100, true⟩
      [⟨⟨['d'], ['x', 'x'], [1], none, 0⟩, 1, none⟩] (by decide) (by decide),
   C6_below_min_empty_above_included.2 (fun _ _ => 1) (fun _ _ => 0)
      ⟨⟨1, .cosine, some 2⟩, [⟨['d'], ['x', 'x'], [1], none, 0⟩], 1⟩
      ['q'] [1] ⟨5, 0, 100, true⟩
      ⟨⟨['d'], ['x', 'x'], [1], none, 0⟩, 1, none⟩ [] (by decide) (by decide) (by decide)⟩

end LightRail
